import Mathlib

/-!
# Natural-sort collation (`solite-stdlib/natsort.c`)

A shallow embedding of `natSortCollFunc`, the collating function that compares
text byte by byte but compares embedded digit runs in numeric order, and proofs
of its ordering properties.

Modelling conventions.

* A key is passed to the C function as a pointer and a length.  The pointer is
  modelled by the memory it points into, a function `Nat → Nat` giving the
  (unsigned char) value stored at every offset, also at offsets past the
  length: the code does read `zA[nKey1]` (line 39), so those reads must have a
  value in the model.
* `int` cursors and lengths are natural numbers (they are never negative and
  never exceed the lengths); returned values are integers.
* Bytes are natural numbers.  Nothing in the code depends on a byte being below
  256, so the properties are stated and proved without that bound.
* `isdigit` and `memcmp` are the C library functions.
* The three loops have no name in the source: `skipZeros` is the loop of line 39
  (and 40), `commonRun` the loop of line 42, `natSortLoop` the outer loop of
  line 34 with the final `return`; `loopBody` is one pass through the body of
  the outer loop.
-/

namespace NatSort

/-! ## The embedding of the source -/

/-- The `isdigit` of `<ctype.h>` on an unsigned char value: true exactly on the
ASCII codes of `'0'` (48) to `'9'` (57). -/
def isdigit (c : Nat) : Bool := decide (48 ≤ c) && decide (c ≤ 57)

/-- The `memcmp(zA+i, zB+j, k)` of `<string.h>`: compares `k` bytes as unsigned
chars; zero when they all agree, otherwise the difference of the first pair of
bytes that differ (only its sign is fixed by the C standard). -/
def memcmp (zA : Nat → Nat) (i : Nat) (zB : Nat → Nat) (j : Nat) : Nat → Int
  | 0 => 0
  | k + 1 =>
    if zA i ≠ zB j then (zA i : Int) - (zB j : Int)
    else memcmp zA (i + 1) zB (j + 1) k

/-- Lines 39 and 40: `while( z[i]=='0' && i<n ){ i++; }`.  The value is the
cursor when the loop exits.  The conjuncts are kept in the order of the
source: the byte is compared first, the bound second. -/
def skipZeros (z : Nat → Nat) (n : Nat) (i : Nat) : Nat :=
  if z i = 48 ∧ i < n then skipZeros z n (i + 1) else i
termination_by n - i
decreasing_by omega

/-- The offsets at which the loop of line 39 (or 40) reads the key, in order:
every evaluation of the loop condition `z[i]=='0' && i<n` reads `z[i]` before
it compares `i` with `n`. -/
def skipZerosReads (z : Nat → Nat) (n : Nat) (i : Nat) : List Nat :=
  i :: (if z i = 48 ∧ i < n then skipZerosReads z n (i + 1) else [])
termination_by n - i
decreasing_by omega

/-- Lines 41 to 44: `while( i+k<nKey1 && isdigit(zA[i+k]) && j+k<nKey2 &&
isdigit(zB[j+k]) ){ k++; }`.  The value is `k` when the loop exits. -/
def commonRun (zA : Nat → Nat) (nKey1 : Nat) (zB : Nat → Nat) (nKey2 : Nat)
    (i j k : Nat) : Nat :=
  if i + k < nKey1 ∧ isdigit (zA (i + k)) = true ∧
      j + k < nKey2 ∧ isdigit (zB (j + k)) = true then
    commonRun zA nKey1 zB nKey2 i j (k + 1)
  else k
termination_by nKey1 - (i + k)
decreasing_by omega

/-- What one pass through the body of the outer loop does: it returns from the
function with a value, or it falls through to the loop test with new cursors. -/
inductive Step where
  | ret (x : Int)
  | next (i j : Nat)
  deriving DecidableEq, Repr

/-- Lines 35 to 60: the body of the outer loop, entered with `i<nKey1` and
`j<nKey2`. -/
def loopBody (nKey1 : Nat) (zA : Nat → Nat) (nKey2 : Nat) (zB : Nat → Nat)
    (i j : Nat) : Step :=
  let x : Int := (zA i : Int) - (zB j : Int)
  if isdigit (zA i) = true then
    if ¬ isdigit (zB j) = true then Step.ret x
    else
      let i1 := skipZeros zA nKey1 i
      let j1 := skipZeros zB nKey2 j
      let k := commonRun zA nKey1 zB nKey2 i1 j1 0
      if i1 + k < nKey1 ∧ isdigit (zA (i1 + k)) = true then Step.ret 1
      else if j1 + k < nKey2 ∧ isdigit (zB (j1 + k)) = true then Step.ret (-1)
      else
        let x1 := memcmp zA i1 zB j1 k
        if x1 ≠ 0 then Step.ret x1
        else Step.next (i1 + k) (j1 + k)
  else if x ≠ 0 then Step.ret x
  else Step.next (i + 1) (j + 1)

/-! Facts about the inner loops and the loop body on which the termination of the
outer loop rests; they have to precede its definition. -/

theorem skipZeros_ge (z : Nat → Nat) (n i : Nat) : i ≤ skipZeros z n i := by
  induction i using skipZeros.induct z n with
  | case1 i h ih => rw [skipZeros, if_pos h]; omega
  | case2 i h => rw [skipZeros, if_neg h]

theorem skipZeros_le (z : Nat → Nat) (n i : Nat) (hi : i ≤ n) :
    skipZeros z n i ≤ n := by
  induction i using skipZeros.induct z n with
  | case1 i h ih => rw [skipZeros, if_pos h]; exact ih (by omega)
  | case2 i h => rw [skipZeros, if_neg h]; exact hi

theorem skipZeros_gt (z : Nat → Nat) (n i : Nat) (h0 : z i = 48) (hi : i < n) :
    i < skipZeros z n i := by
  rw [skipZeros, if_pos ⟨h0, hi⟩]
  have := skipZeros_ge z n (i + 1)
  omega

theorem skipZeros_eq_self (z : Nat → Nat) (n i : Nat) (h0 : z i ≠ 48) :
    skipZeros z n i = i := by
  rw [skipZeros, if_neg (fun h => h0 h.1)]

theorem commonRun_ge (zA : Nat → Nat) (nKey1 : Nat) (zB : Nat → Nat) (nKey2 : Nat)
    (i j k : Nat) : k ≤ commonRun zA nKey1 zB nKey2 i j k := by
  induction k using commonRun.induct zA nKey1 zB nKey2 i j with
  | case1 k h ih => rw [commonRun, if_pos h]; omega
  | case2 k h => rw [commonRun, if_neg h]

theorem commonRun_le (zA : Nat → Nat) (nKey1 : Nat) (zB : Nat → Nat) (nKey2 : Nat)
    (i j k : Nat) (hi : i + k ≤ nKey1) (hj : j + k ≤ nKey2) :
    i + commonRun zA nKey1 zB nKey2 i j k ≤ nKey1 ∧
      j + commonRun zA nKey1 zB nKey2 i j k ≤ nKey2 := by
  induction k using commonRun.induct zA nKey1 zB nKey2 i j with
  | case1 k h ih => rw [commonRun, if_pos h]; exact ih (by omega) (by omega)
  | case2 k h => rw [commonRun, if_neg h]; exact ⟨hi, hj⟩

/-- A pass through the loop body that does not return moves the cursors
forward, by at least one byte in total, and keeps them within the lengths. -/
theorem loopBody_next (nKey1 : Nat) (zA : Nat → Nat) (nKey2 : Nat) (zB : Nat → Nat)
    (i j i2 j2 : Nat) (hi : i < nKey1) (hj : j < nKey2)
    (h : loopBody nKey1 zA nKey2 zB i j = Step.next i2 j2) :
    i ≤ i2 ∧ j ≤ j2 ∧ i + j < i2 + j2 ∧ i2 ≤ nKey1 ∧ j2 ≤ nKey2 := by
  unfold loopBody at h
  simp only at h
  split_ifs at h with h1 h2 h3 h4 h5 h6
  · -- both cursors at a digit, the runs were equal
    simp only [Step.next.injEq] at h
    obtain ⟨rfl, rfl⟩ := h
    have hia := skipZeros_ge zA nKey1 i
    have hjb := skipZeros_ge zB nKey2 j
    have hle := commonRun_le zA nKey1 zB nKey2 (skipZeros zA nKey1 i)
      (skipZeros zB nKey2 j) 0 (skipZeros_le zA nKey1 i hi.le)
      (skipZeros_le zB nKey2 j hj.le)
    refine ⟨by omega, by omega, ?_, hle.1, hle.2⟩
    by_cases ha : zA i = 48
    · have := skipZeros_gt zA nKey1 i ha hi
      omega
    · by_cases hb : zB j = 48
      · have := skipZeros_gt zB nKey2 j hb hj
        omega
      · have ea := skipZeros_eq_self zA nKey1 i ha
        have eb := skipZeros_eq_self zB nKey2 j hb
        have hk : 1 ≤ commonRun zA nKey1 zB nKey2 (skipZeros zA nKey1 i)
            (skipZeros zB nKey2 j) 0 := by
          rw [ea, eb, commonRun, if_pos ⟨by omega, by simpa using h1, by omega,
            by simpa using h2⟩]
          exact commonRun_ge zA nKey1 zB nKey2 i j 1
        omega
  · simp only [Step.next.injEq] at h
    obtain ⟨rfl, rfl⟩ := h
    omega

/-- Lines 34 to 62: the outer loop from cursors `i`, `j`, and the final
`return (nKey1 - i) - (nKey2 - j)`. -/
def natSortLoop (nKey1 : Nat) (zA : Nat → Nat) (nKey2 : Nat) (zB : Nat → Nat)
    (i j : Nat) : Int :=
  if hij : i < nKey1 ∧ j < nKey2 then
    match hb : loopBody nKey1 zA nKey2 zB i j with
    | Step.ret x => x
    | Step.next i2 j2 => natSortLoop nKey1 zA nKey2 zB i2 j2
  else ((nKey1 : Int) - (i : Int)) - ((nKey2 : Int) - (j : Int))
termination_by (nKey1 + nKey2) - (i + j)
decreasing_by
  have := loopBody_next nKey1 zA nKey2 zB i j i2 j2 hij.1 hij.2 hb
  omega

/-- The collating function `natSortCollFunc(notUsed, nKey1, pKey1, nKey2,
pKey2)`: `zA` and `zB` are the memory at `pKey1` and `pKey2`, and both cursors
start at 0. -/
def natSortCollFunc (nKey1 : Nat) (zA : Nat → Nat) (nKey2 : Nat) (zB : Nat → Nat) : Int :=
  natSortLoop nKey1 zA nKey2 zB 0 0

/-- The outer loop run for at most `fuel` passes through its body: `none` when
a further pass would be needed, otherwise the value the function returns. -/
def natSortFuel (nKey1 : Nat) (zA : Nat → Nat) (nKey2 : Nat) (zB : Nat → Nat) :
    Nat → Nat → Nat → Option Int
  | 0, i, j =>
    if i < nKey1 ∧ j < nKey2 then none
    else some (((nKey1 : Int) - (i : Int)) - ((nKey2 : Int) - (j : Int)))
  | fuel + 1, i, j =>
    if i < nKey1 ∧ j < nKey2 then
      match loopBody nKey1 zA nKey2 zB i j with
      | Step.ret x => some x
      | Step.next i2 j2 => natSortFuel nKey1 zA nKey2 zB fuel i2 j2
    else some (((nKey1 : Int) - (i : Int)) - ((nKey2 : Int) - (j : Int)))

/-- A byte buffer laid out in memory: offset `i` holds `X[i]` for `i` within
the buffer, and `past i` (whatever happens to follow the buffer) beyond it. -/
def mem (X : List Nat) (past : Nat → Nat) : Nat → Nat :=
  fun i => if h : i < X.length then X.get ⟨i, h⟩ else past i

/-- The cursor pairs with which the test of the outer loop is reached during a
call: the pair (0, 0), and the pair every pass through the body that does not
return leaves behind. -/
inductive LoopHead (nKey1 : Nat) (zA : Nat → Nat) (nKey2 : Nat) (zB : Nat → Nat) :
    Nat → Nat → Prop where
  | start : LoopHead nKey1 zA nKey2 zB 0 0
  | pass (i j i2 j2 : Nat) : LoopHead nKey1 zA nKey2 zB i j → i < nKey1 → j < nKey2 →
      loopBody nKey1 zA nKey2 zB i j = Step.next i2 j2 → LoopHead nKey1 zA nKey2 zB i2 j2

/-! ## Definitions for stating and proving the properties

None of these is part of the source: they describe byte sequences, digit runs
and the sequence of tokens that the comparison sees of a key. -/

/-- The bytes of a key from cursor `i` on: `z[i], ..., z[n-1]`. -/
def bytesFrom (z : Nat → Nat) (n i : Nat) : List Nat :=
  (List.range' i (n - i)).map z

/-- Number of `'0'` bytes a list starts with. -/
def zerosLen : List Nat → Nat
  | [] => 0
  | c :: cs => if c = 48 then zerosLen cs + 1 else 0

/-- Number of digit bytes a list starts with. -/
def digitsLen : List Nat → Nat
  | [] => 0
  | c :: cs => if isdigit c = true then digitsLen cs + 1 else 0

/-- Number of positions from the start at which both lists hold a digit. -/
def commonLen : List Nat → List Nat → Nat
  | c :: cs, d :: ds =>
    if isdigit c = true ∧ isdigit d = true then commonLen cs ds + 1 else 0
  | _, _ => 0

/-- Byte-wise comparison of the first `k` bytes of two lists (each at least
`k` long): the difference of the first pair that differs, or 0. -/
def cmpBytes : Nat → List Nat → List Nat → Int
  | k + 1, c :: cs, d :: ds => if c ≠ d then (c : Int) - (d : Int) else cmpBytes k cs ds
  | _, _, _ => 0

/-- Whether a list starts with a digit byte. -/
def headDigit : List Nat → Bool
  | [] => false
  | c :: _ => isdigit c

/-- Numeric value of the digit run a list starts with (0 when there is none). -/
def runVal : List Nat → Nat
  | [] => 0
  | c :: cs => if isdigit c = true then (c - 48) * 10 ^ digitsLen cs + runVal cs else 0

/-- A key is read as a sequence of tokens: a byte that is not a digit, or a
maximal run of digits, which counts by its numeric value. -/
inductive Tok where
  | byte (c : Nat)
  | num (v : Nat)
  deriving DecidableEq, Repr

/-- Position of a token in the order: bytes below `'0'`, then the numbers by
value, then bytes above `'9'`. -/
def Tok.rank : Tok → Nat × Nat
  | Tok.byte c => (if c < 48 then 0 else 2, c)
  | Tok.num v => (1, v)

/-- Strict order of tokens. -/
def Tok.lt (s t : Tok) : Prop :=
  s.rank.1 < t.rank.1 ∨ (s.rank.1 = t.rank.1 ∧ s.rank.2 < t.rank.2)

instance (s t : Tok) : Decidable (Tok.lt s t) := by
  unfold Tok.lt
  infer_instance

/-- Tokens of a list of bytes; the first argument is the value of the digit
run being read, if the scan is inside one. -/
def keyAux : Option Nat → List Nat → List Tok
  | none, [] => []
  | some v, [] => [Tok.num v]
  | none, c :: cs =>
    if isdigit c = true then keyAux (some (c - 48)) cs
    else Tok.byte c :: keyAux none cs
  | some v, c :: cs =>
    if isdigit c = true then keyAux (some (10 * v + (c - 48))) cs
    else Tok.num v :: Tok.byte c :: keyAux none cs

/-- Tokens of a list of bytes. -/
def key (a : List Nat) : List Tok := keyAux none a

/-- Lexicographic three-way comparison of token sequences: -1, 0 or 1. -/
def keyCmp : List Tok → List Tok → Int
  | [], [] => 0
  | [], _ :: _ => -1
  | _ :: _, [] => 1
  | s :: ss, t :: ts =>
    if Tok.lt s t then -1 else if Tok.lt t s then 1 else keyCmp ss ts

/-- Whether the last byte of a list is a digit (false for the empty list). -/
def endsInDigit : List Nat → Bool
  | [] => false
  | [c] => isdigit c
  | _ :: c :: cs => endsInDigit (c :: cs)

/-- The natural number a string of ASCII digits denotes in base ten, read from
the left; leading zeros do not count. -/
def decVal (D : List Nat) : Nat :=
  D.foldl (fun v c => 10 * v + (c - 48)) 0

/-- Plain lexicographic comparison of two byte sequences: the first position
where they differ decides, and when there is none the shorter one is less.
The value is -1, 0 or 1. -/
def lexCmp : List Nat → List Nat → Int
  | [], [] => 0
  | [], _ :: _ => -1
  | _ :: _, [] => 1
  | c :: cs, d :: ds => if c < d then -1 else if d < c then 1 else lexCmp cs ds

/-- Moves a step that counts its cursors from the current position to a step
with absolute cursors. -/
def Step.shift (i j : Nat) : Step → Step
  | Step.ret x => Step.ret x
  | Step.next di dj => Step.next (i + di) (j + dj)

/-- One pass through the body of the outer loop, told on the bytes `a` and `b`
that lie ahead of the two cursors (both non-empty when the body is entered);
`Step.next di dj` says by how much each cursor advances. -/
def listBody (a b : List Nat) : Step :=
  let x : Int := (a.headD 0 : Int) - (b.headD 0 : Int)
  if isdigit (a.headD 0) = true then
    if ¬ isdigit (b.headD 0) = true then Step.ret x
    else
      let a1 := a.drop (zerosLen a)
      let b1 := b.drop (zerosLen b)
      let k := commonLen a1 b1
      if headDigit (a1.drop k) = true then Step.ret 1
      else if headDigit (b1.drop k) = true then Step.ret (-1)
      else
        let x1 := cmpBytes k a1 b1
        if x1 ≠ 0 then Step.ret x1
        else Step.next (zerosLen a + k) (zerosLen b + k)
  else if x ≠ 0 then Step.ret x
  else Step.next 1 1

/-- A run of digits with its leading `'0'` bytes removed; a run of `'0'` bytes
only becomes the single byte `'0'`. -/
def normRun (D : List Nat) : List Nat :=
  if D.drop (zerosLen D) = [] then [48] else D.drop (zerosLen D)

/-- The scan behind `norm`; the first argument is the digit run being read, if
the scan is inside one. -/
def normAux : Option (List Nat) → List Nat → List Nat
  | none, [] => []
  | some r, [] => normRun r
  | none, c :: cs =>
    if isdigit c = true then normAux (some [c]) cs else c :: normAux none cs
  | some r, c :: cs =>
    if isdigit c = true then normAux (some (r ++ [c])) cs
    else normRun r ++ c :: normAux none cs

/-- The buffer with every maximal run of digits replaced by the same run
without its leading `'0'` bytes, a run of `'0'` bytes only by a single `'0'`. -/
def norm (X : List Nat) : List Nat := normAux none X

/-! ## The keys as lists of bytes -/

theorem bytesFrom_lt (z : Nat → Nat) (n i : Nat) (h : i < n) :
    bytesFrom z n i = z i :: bytesFrom z n (i + 1) := by
  unfold bytesFrom
  obtain ⟨m, hm⟩ : ∃ m, n - i = m + 1 := ⟨n - i - 1, by omega⟩
  have h2 : n - (i + 1) = m := by omega
  rw [hm, h2]
  rfl

theorem bytesFrom_ge (z : Nat → Nat) (n i : Nat) (h : n ≤ i) :
    bytesFrom z n i = [] := by
  unfold bytesFrom
  have : n - i = 0 := by omega
  rw [this]
  rfl

theorem bytesFrom_length (z : Nat → Nat) (n i : Nat) :
    (bytesFrom z n i).length = n - i := by
  simp [bytesFrom]

theorem bytesFrom_drop (z : Nat → Nat) (n : Nat) (m i : Nat) :
    (bytesFrom z n i).drop m = bytesFrom z n (i + m) := by
  induction m generalizing i with
  | zero => simp
  | succ m ih =>
    by_cases h : i < n
    · rw [bytesFrom_lt z n i h, List.drop_succ_cons, ih]
      congr 1
      omega
    · rw [bytesFrom_ge z n i (by omega), bytesFrom_ge z n _ (by omega)]
      simp

theorem skipZeros_eq (z : Nat → Nat) (n i : Nat) :
    skipZeros z n i = i + zerosLen (bytesFrom z n i) := by
  induction i using skipZeros.induct z n with
  | case1 i h ih =>
    rw [skipZeros, if_pos h, ih, bytesFrom_lt z n i h.2]
    simp only [zerosLen, if_pos h.1]
    omega
  | case2 i h =>
    rw [skipZeros, if_neg h]
    by_cases hi : i < n
    · rw [bytesFrom_lt z n i hi]
      have : z i ≠ 48 := fun h0 => h ⟨h0, hi⟩
      simp [zerosLen, this]
    · rw [bytesFrom_ge z n i (by omega)]
      simp [zerosLen]

theorem commonRun_eq (zA : Nat → Nat) (nKey1 : Nat) (zB : Nat → Nat) (nKey2 : Nat)
    (i j k : Nat) :
    commonRun zA nKey1 zB nKey2 i j k =
      k + commonLen (bytesFrom zA nKey1 (i + k)) (bytesFrom zB nKey2 (j + k)) := by
  induction k using commonRun.induct zA nKey1 zB nKey2 i j with
  | case1 k h ih =>
    rw [commonRun, if_pos h, ih, bytesFrom_lt zA nKey1 _ h.1,
      bytesFrom_lt zB nKey2 _ h.2.2.1]
    simp only [commonLen, if_pos (And.intro h.2.1 h.2.2.2)]
    have e1 : i + (k + 1) = i + k + 1 := by omega
    have e2 : j + (k + 1) = j + k + 1 := by omega
    rw [e1, e2]
    omega
  | case2 k h =>
    rw [commonRun, if_neg h]
    by_cases hi : i + k < nKey1
    · by_cases hj : j + k < nKey2
      · rw [bytesFrom_lt zA nKey1 _ hi, bytesFrom_lt zB nKey2 _ hj]
        have : ¬ (isdigit (zA (i + k)) = true ∧ isdigit (zB (j + k)) = true) :=
          fun hd => h ⟨hi, hd.1, hj, hd.2⟩
        simp only [commonLen, if_neg this]
        omega
      · rw [bytesFrom_ge zB nKey2 _ (by omega)]
        cases bytesFrom zA nKey1 (i + k) <;> simp [commonLen]
    · rw [bytesFrom_ge zA nKey1 _ (by omega)]
      simp [commonLen]

theorem memcmp_eq (zA : Nat → Nat) (nKey1 : Nat) (zB : Nat → Nat) (nKey2 : Nat)
    (k i j : Nat) (hi : i + k ≤ nKey1) (hj : j + k ≤ nKey2) :
    memcmp zA i zB j k = cmpBytes k (bytesFrom zA nKey1 i) (bytesFrom zB nKey2 j) := by
  induction k generalizing i j with
  | zero => simp [memcmp, cmpBytes]
  | succ k ih =>
    rw [bytesFrom_lt zA nKey1 i (by omega), bytesFrom_lt zB nKey2 j (by omega)]
    simp only [memcmp, cmpBytes]
    rw [ih (i + 1) (j + 1) (by omega) (by omega)]

/-! ## Tokens: what the comparison sees of a key -/

theorem digitsLen_le (a : List Nat) : digitsLen a ≤ a.length := by
  induction a with
  | nil => simp [digitsLen]
  | cons c cs ih =>
    simp only [digitsLen, List.length_cons]
    split_ifs <;> omega

theorem runVal_lt (a : List Nat) : runVal a < 10 ^ digitsLen a := by
  induction a with
  | nil => simp [runVal, digitsLen]
  | cons c cs ih =>
    by_cases h : isdigit c = true
    · simp only [runVal, digitsLen, if_pos h]
      have hc : c - 48 ≤ 9 := by
        simp only [isdigit, Bool.and_eq_true, decide_eq_true_eq] at h
        omega
      have := Nat.mul_le_mul_right (10 ^ digitsLen cs) hc
      rw [pow_succ]
      omega
    · simp [runVal, digitsLen, h]

theorem runVal_ge (c : Nat) (cs : List Nat) (h : isdigit c = true) (h0 : c ≠ 48) :
    10 ^ digitsLen cs ≤ runVal (c :: cs) := by
  simp only [runVal, if_pos h]
  have hc : 1 ≤ c - 48 := by
    simp only [isdigit, Bool.and_eq_true, decide_eq_true_eq] at h
    omega
  have := Nat.mul_le_mul_right (10 ^ digitsLen cs) hc
  omega

theorem keyAux_some (v : Nat) (a : List Nat) :
    keyAux (some v) a =
      Tok.num (v * 10 ^ digitsLen a + runVal a) :: key (a.drop (digitsLen a)) := by
  induction a generalizing v with
  | nil => simp [keyAux, digitsLen, runVal, key]
  | cons c cs ih =>
    by_cases h : isdigit c = true
    · simp only [keyAux, digitsLen, runVal, if_pos h, List.drop_succ_cons]
      rw [ih]
      congr 2
      ring
    · simp [keyAux, digitsLen, runVal, h, key]

theorem key_nil : key [] = [] := rfl

theorem key_cons_byte (c : Nat) (cs : List Nat) (h : ¬ isdigit c = true) :
    key (c :: cs) = Tok.byte c :: key cs := by
  simp [key, keyAux, h]

theorem key_of_headDigit (a : List Nat) (h : headDigit a = true) :
    key a = Tok.num (runVal a) :: key (a.drop (digitsLen a)) := by
  cases a with
  | nil => simp [headDigit] at h
  | cons c cs =>
    simp only [headDigit] at h
    simp only [key, keyAux, if_pos h, digitsLen, runVal, List.drop_succ_cons]
    rw [keyAux_some]
    rfl

theorem key_ne_nil (c : Nat) (cs : List Nat) : key (c :: cs) ≠ [] := by
  by_cases h : isdigit c = true
  · rw [key_of_headDigit (c :: cs) (by simpa [headDigit] using h)]
    simp
  · rw [key_cons_byte c cs h]
    simp

/-! ## Digit runs: leading zeros, length and value -/

theorem isdigit_48 : isdigit 48 = true := by decide

theorem isdigit_iff (c : Nat) : isdigit c = true ↔ 48 ≤ c ∧ c ≤ 57 := by
  simp [isdigit]

theorem runVal_of_digitsLen_zero (a : List Nat) (h : digitsLen a = 0) : runVal a = 0 := by
  cases a with
  | nil => rfl
  | cons c cs =>
    by_cases hc : isdigit c = true
    · simp [digitsLen, hc] at h
    · simp [runVal, hc]

theorem cmpBytes_zero (a b : List Nat) : cmpBytes 0 a b = 0 := by
  cases a <;> cases b <;> rfl

theorem digitsLen_dropZeros (a : List Nat) :
    digitsLen a = zerosLen a + digitsLen (a.drop (zerosLen a)) := by
  induction a with
  | nil => simp [digitsLen, zerosLen]
  | cons c cs ih =>
    by_cases h : c = 48
    · subst h
      simp only [digitsLen, zerosLen, if_pos isdigit_48, if_true, List.drop_succ_cons]
      omega
    · simp [zerosLen, h]

theorem runVal_dropZeros (a : List Nat) : runVal (a.drop (zerosLen a)) = runVal a := by
  induction a with
  | nil => simp [zerosLen]
  | cons c cs ih =>
    by_cases h : c = 48
    · subst h
      simp only [zerosLen, if_true, List.drop_succ_cons, runVal, if_pos isdigit_48]
      rw [ih]
      simp
    · simp [zerosLen, h]

theorem drop_digitsLen_dropZeros (a : List Nat) :
    (a.drop (zerosLen a)).drop (digitsLen (a.drop (zerosLen a))) = a.drop (digitsLen a) := by
  rw [List.drop_drop, digitsLen_dropZeros a]

theorem head_dropZeros (a : List Nat) (c : Nat) (cs : List Nat)
    (h : a.drop (zerosLen a) = c :: cs) : c ≠ 48 := by
  induction a with
  | nil => simp [zerosLen] at h
  | cons d ds ih =>
    by_cases hd : d = 48
    · subst hd
      simp only [zerosLen, if_true, List.drop_succ_cons] at h
      exact ih h
    · simp only [zerosLen, if_neg hd, List.drop_zero, List.cons.injEq] at h
      rw [← h.1]
      exact hd

theorem commonLen_eq_min (a b : List Nat) :
    commonLen a b = min (digitsLen a) (digitsLen b) := by
  induction a generalizing b with
  | nil => simp [commonLen, digitsLen]
  | cons c cs ih =>
    cases b with
    | nil => simp [commonLen, digitsLen]
    | cons d ds =>
      by_cases hc : isdigit c = true
      · by_cases hd : isdigit d = true
        · simp only [commonLen, digitsLen, if_pos hc, if_pos hd, if_pos (And.intro hc hd), ih]
          omega
        · simp [commonLen, digitsLen, hd]
      · simp [commonLen, digitsLen, hc]

theorem headDigit_drop (a : List Nat) (m : Nat) (hm : m ≤ digitsLen a) :
    headDigit (a.drop m) = true ↔ m < digitsLen a := by
  induction a generalizing m with
  | nil => simp [headDigit, digitsLen]
  | cons c cs ih =>
    by_cases hc : isdigit c = true
    · cases m with
      | zero => simp [headDigit, digitsLen, hc]
      | succ m =>
        simp only [digitsLen, if_pos hc] at hm ⊢
        rw [List.drop_succ_cons, ih m (by omega)]
        omega
    · simp only [digitsLen, if_neg hc] at hm ⊢
      have : m = 0 := by omega
      subst this
      simp [headDigit, hc]

theorem runVal_lt_of_digitsLen_lt (a b : List Nat)
    (h0 : ∀ c cs, a = c :: cs → c ≠ 48) (h : digitsLen b < digitsLen a) :
    runVal b < runVal a := by
  cases a with
  | nil => simp [digitsLen] at h
  | cons c cs =>
    by_cases hc : isdigit c = true
    · simp only [digitsLen, if_pos hc] at h
      have h1 := runVal_ge c cs hc (h0 c cs rfl)
      have h2 := runVal_lt b
      have h3 : 10 ^ digitsLen b ≤ 10 ^ digitsLen cs :=
        Nat.pow_le_pow_right (by norm_num) (by omega)
      omega
    · simp [digitsLen, hc] at h

theorem sign_sub_nat (u v : Nat) :
    Int.sign ((u : Int) - (v : Int)) = if u < v then -1 else if v < u then 1 else 0 := by
  split_ifs with h1 h2
  · exact Int.sign_eq_neg_one_of_neg (by omega)
  · exact Int.sign_eq_one_of_pos (by omega)
  · have : (u : Int) - (v : Int) = 0 := by omega
    rw [this]
    rfl

theorem cmpBytes_digits (k : Nat) (a b : List Nat)
    (ha : digitsLen a = k) (hb : digitsLen b = k) :
    Int.sign (cmpBytes k a b) = Int.sign ((runVal a : Int) - (runVal b : Int)) := by
  induction k generalizing a b with
  | zero =>
    rw [cmpBytes_zero, runVal_of_digitsLen_zero a ha, runVal_of_digitsLen_zero b hb]
    simp
  | succ k ih =>
    cases a with
    | nil => simp [digitsLen] at ha
    | cons c cs =>
      cases b with
      | nil => simp [digitsLen] at hb
      | cons d ds =>
        by_cases hc : isdigit c = true
        · by_cases hd : isdigit d = true
          · simp only [digitsLen, if_pos hc, if_pos hd, Nat.add_right_cancel_iff] at ha hb
            have lc := runVal_lt cs
            have ld := runVal_lt ds
            rw [ha] at lc
            rw [hb] at ld
            have dc := (isdigit_iff c).1 hc
            have dd := (isdigit_iff d).1 hd
            simp only [cmpBytes, runVal, if_pos hc, if_pos hd, ha, hb]
            by_cases hcd : c = d
            · subst hcd
              simp only [ne_eq, not_true_eq_false, if_false]
              rw [ih cs ds ha hb]
              congr 1
              push_cast
              ring
            · simp only [ne_eq, hcd, not_false_eq_true, if_true]
              rcases Nat.lt_or_gt_of_ne hcd with hlt | hgt
              · have hm := Nat.mul_le_mul_right (10 ^ k) (show c - 48 + 1 ≤ d - 48 by omega)
                rw [Nat.add_mul, Nat.one_mul] at hm
                have hv : (c - 48) * 10 ^ k + runVal cs < (d - 48) * 10 ^ k + runVal ds := by
                  omega
                rw [sign_sub_nat, sign_sub_nat, if_pos hlt, if_pos hv]
              · have hm := Nat.mul_le_mul_right (10 ^ k) (show d - 48 + 1 ≤ c - 48 by omega)
                rw [Nat.add_mul, Nat.one_mul] at hm
                have hv : (d - 48) * 10 ^ k + runVal ds < (c - 48) * 10 ^ k + runVal cs := by
                  omega
                rw [sign_sub_nat, sign_sub_nat, if_neg (by omega), if_pos hgt,
                  if_neg (by omega), if_pos hv]
          · simp [digitsLen, hd] at hb
        · simp [digitsLen, hc] at ha

theorem cmpBytes_eq_zero (k : Nat) (a b : List Nat)
    (ha : k ≤ a.length) (hb : k ≤ b.length) (h : cmpBytes k a b = 0) :
    a.take k = b.take k := by
  induction k generalizing a b with
  | zero => simp
  | succ k ih =>
    cases a with
    | nil => simp at ha
    | cons c cs =>
      cases b with
      | nil => simp at hb
      | cons d ds =>
        simp only [cmpBytes] at h
        by_cases hcd : c = d
        · subst hcd
          simp only [ne_eq, not_true_eq_false, if_false] at h
          simp only [List.length_cons, Nat.add_le_add_iff_right] at ha hb
          rw [List.take_succ_cons, List.take_succ_cons, ih cs ds ha hb h]
        · simp only [ne_eq, hcd, not_false_eq_true, if_true] at h
          omega

/-! ## Comparing token sequences -/

theorem keyCmp_num_num (u v : Nat) (s t : List Tok) :
    keyCmp (Tok.num u :: s) (Tok.num v :: t) =
      if u < v then -1 else if v < u then 1 else keyCmp s t := by
  simp [keyCmp, Tok.lt, Tok.rank]

theorem keyCmp_byte_byte (c d : Nat) (s t : List Tok) :
    keyCmp (Tok.byte c :: s) (Tok.byte d :: t) =
      if c < d then -1 else if d < c then 1 else keyCmp s t := by
  have h1 : Tok.lt (Tok.byte c) (Tok.byte d) ↔ c < d := by
    simp only [Tok.lt, Tok.rank]
    split_ifs <;> omega
  have h2 : Tok.lt (Tok.byte d) (Tok.byte c) ↔ d < c := by
    simp only [Tok.lt, Tok.rank]
    split_ifs <;> omega
  simp only [keyCmp, h1, h2]

theorem keyCmp_num_byte (v d : Nat) (s t : List Tok) :
    keyCmp (Tok.num v :: s) (Tok.byte d :: t) = if d < 48 then 1 else -1 := by
  have h1 : Tok.lt (Tok.num v) (Tok.byte d) ↔ ¬ d < 48 := by
    by_cases hd : d < 48 <;> simp [Tok.lt, Tok.rank, hd]
  have h2 : Tok.lt (Tok.byte d) (Tok.num v) ↔ d < 48 := by
    by_cases hd : d < 48 <;> simp [Tok.lt, Tok.rank, hd]
  simp only [keyCmp, h1, h2]
  split_ifs <;> simp_all

theorem keyCmp_byte_num (c v : Nat) (s t : List Tok) :
    keyCmp (Tok.byte c :: s) (Tok.num v :: t) = if c < 48 then -1 else 1 := by
  have h1 : Tok.lt (Tok.byte c) (Tok.num v) ↔ c < 48 := by
    by_cases hc : c < 48 <;> simp [Tok.lt, Tok.rank, hc]
  have h2 : Tok.lt (Tok.num v) (Tok.byte c) ↔ ¬ c < 48 := by
    by_cases hc : c < 48 <;> simp [Tok.lt, Tok.rank, hc]
  simp only [keyCmp, h1, h2]
  split_ifs <;> simp_all

/-- The digit branch of the loop body, on the lists of bytes ahead of the two
cursors: `a1`, `b1` are what is left once the leading zeros are skipped and `k`
is the common run length. -/
theorem digitBranch_key (a b : List Nat) (ha : headDigit a = true) (hb : headDigit b = true) :
    (headDigit ((a.drop (zerosLen a)).drop
        (commonLen (a.drop (zerosLen a)) (b.drop (zerosLen b)))) = true →
      keyCmp (key a) (key b) = 1) ∧
    (¬ headDigit ((a.drop (zerosLen a)).drop
        (commonLen (a.drop (zerosLen a)) (b.drop (zerosLen b)))) = true →
      headDigit ((b.drop (zerosLen b)).drop
        (commonLen (a.drop (zerosLen a)) (b.drop (zerosLen b)))) = true →
      keyCmp (key a) (key b) = -1) ∧
    (¬ headDigit ((a.drop (zerosLen a)).drop
        (commonLen (a.drop (zerosLen a)) (b.drop (zerosLen b)))) = true →
      ¬ headDigit ((b.drop (zerosLen b)).drop
        (commonLen (a.drop (zerosLen a)) (b.drop (zerosLen b)))) = true →
      (cmpBytes (commonLen (a.drop (zerosLen a)) (b.drop (zerosLen b)))
          (a.drop (zerosLen a)) (b.drop (zerosLen b)) ≠ 0 →
        Int.sign (cmpBytes (commonLen (a.drop (zerosLen a)) (b.drop (zerosLen b)))
          (a.drop (zerosLen a)) (b.drop (zerosLen b))) = keyCmp (key a) (key b)) ∧
      (cmpBytes (commonLen (a.drop (zerosLen a)) (b.drop (zerosLen b)))
          (a.drop (zerosLen a)) (b.drop (zerosLen b)) = 0 →
        keyCmp (key ((a.drop (zerosLen a)).drop
            (commonLen (a.drop (zerosLen a)) (b.drop (zerosLen b)))))
          (key ((b.drop (zerosLen b)).drop
            (commonLen (a.drop (zerosLen a)) (b.drop (zerosLen b))))) =
          keyCmp (key a) (key b))) := by
  generalize ea : a.drop (zerosLen a) = a1
  generalize eb : b.drop (zerosLen b) = b1
  generalize ek : commonLen a1 b1 = k
  have hk : k = min (digitsLen a1) (digitsLen b1) := by rw [← ek, commonLen_eq_min]
  have hka : k ≤ digitsLen a1 := by omega
  have hkb : k ≤ digitsLen b1 := by omega
  have hA := headDigit_drop a1 k hka
  have hB := headDigit_drop b1 k hkb
  have ra : runVal a1 = runVal a := by rw [← ea, runVal_dropZeros]
  have rb : runVal b1 = runVal b := by rw [← eb, runVal_dropZeros]
  have da : a1.drop (digitsLen a1) = a.drop (digitsLen a) := by
    rw [← ea, drop_digitsLen_dropZeros]
  have db : b1.drop (digitsLen b1) = b.drop (digitsLen b) := by
    rw [← eb, drop_digitsLen_dropZeros]
  have za : ∀ c cs, a1 = c :: cs → c ≠ 48 := fun c cs h =>
    head_dropZeros a c cs (ea.trans h)
  have zb : ∀ c cs, b1 = c :: cs → c ≠ 48 := fun c cs h =>
    head_dropZeros b c cs (eb.trans h)
  rw [key_of_headDigit a ha, key_of_headDigit b hb, keyCmp_num_num, ← ra, ← rb, ← da, ← db]
  refine ⟨fun h => ?_, fun h1 h2 => ?_, fun h1 h2 => ⟨fun hx => ?_, fun hx => ?_⟩⟩
  · have hlt := runVal_lt_of_digitsLen_lt a1 b1 za (by have := hA.1 h; omega)
    rw [if_neg (by omega), if_pos hlt]
  · have hlt := runVal_lt_of_digitsLen_lt b1 a1 zb (by
      have := hB.1 h2
      have : ¬ k < digitsLen a1 := fun h => h1 (hA.2 h)
      omega)
    rw [if_pos hlt]
  · have e1 : digitsLen a1 = k := by
      have : ¬ k < digitsLen a1 := fun h => h1 (hA.2 h)
      omega
    have e2 : digitsLen b1 = k := by
      have : ¬ k < digitsLen b1 := fun h => h2 (hB.2 h)
      omega
    have hs := cmpBytes_digits k a1 b1 e1 e2
    rw [hs, sign_sub_nat]
    have hne : runVal a1 ≠ runVal b1 := by
      intro he
      rw [he, sub_self, Int.sign_zero] at hs
      exact hx (Int.sign_eq_zero_iff_zero.1 hs)
    split_ifs with h3 h4
    · rfl
    · rfl
    · omega
  · have e1 : digitsLen a1 = k := by
      have : ¬ k < digitsLen a1 := fun h => h1 (hA.2 h)
      omega
    have e2 : digitsLen b1 = k := by
      have : ¬ k < digitsLen b1 := fun h => h2 (hB.2 h)
      omega
    have hs := cmpBytes_digits k a1 b1 e1 e2
    rw [hx, sign_sub_nat, Int.sign_zero] at hs
    have he : runVal a1 = runVal b1 := by
      by_contra hne
      split_ifs at hs with h3 h4
      all_goals omega
    rw [e1, e2, if_neg (by omega), if_neg (by omega)]

/-! ## The loop computes the comparison of the token sequences -/

theorem natSortLoop_exit (nKey1 : Nat) (zA : Nat → Nat) (nKey2 : Nat) (zB : Nat → Nat)
    (i j : Nat) (h : ¬ (i < nKey1 ∧ j < nKey2)) :
    natSortLoop nKey1 zA nKey2 zB i j =
      ((nKey1 : Int) - (i : Int)) - ((nKey2 : Int) - (j : Int)) := by
  rw [natSortLoop, dif_neg h]

theorem natSortLoop_ret (nKey1 : Nat) (zA : Nat → Nat) (nKey2 : Nat) (zB : Nat → Nat)
    (i j : Nat) (x : Int) (h : i < nKey1 ∧ j < nKey2)
    (hb : loopBody nKey1 zA nKey2 zB i j = Step.ret x) :
    natSortLoop nKey1 zA nKey2 zB i j = x := by
  rw [natSortLoop, dif_pos h]
  split
  · rename_i y hy
    rw [hb] at hy
    exact (Step.ret.inj hy).symm
  · rename_i i2 j2 hy
    rw [hb] at hy
    cases hy

theorem natSortLoop_step (nKey1 : Nat) (zA : Nat → Nat) (nKey2 : Nat) (zB : Nat → Nat)
    (i j i2 j2 : Nat) (h : i < nKey1 ∧ j < nKey2)
    (hb : loopBody nKey1 zA nKey2 zB i j = Step.next i2 j2) :
    natSortLoop nKey1 zA nKey2 zB i j = natSortLoop nKey1 zA nKey2 zB i2 j2 := by
  rw [natSortLoop, dif_pos h]
  split
  · rename_i y hy
    rw [hb] at hy
    cases hy
  · rename_i i3 j3 hy
    rw [hb] at hy
    cases hy
    rfl

theorem headDigit_bytesFrom (z : Nat → Nat) (n m : Nat) :
    headDigit (bytesFrom z n m) = true ↔ m < n ∧ isdigit (z m) = true := by
  by_cases h : m < n
  · rw [bytesFrom_lt z n m h]
    simp [headDigit, h]
  · rw [bytesFrom_ge z n m (by omega)]
    simp [headDigit, h]

theorem loopBody_digit_byte (nKey1 : Nat) (zA : Nat → Nat) (nKey2 : Nat) (zB : Nat → Nat)
    (i j : Nat) (h1 : isdigit (zA i) = true) (h2 : ¬ isdigit (zB j) = true) :
    loopBody nKey1 zA nKey2 zB i j = Step.ret ((zA i : Int) - (zB j : Int)) := by
  unfold loopBody
  simp only [if_pos h1, if_pos h2]

theorem loopBody_byte_ne (nKey1 : Nat) (zA : Nat → Nat) (nKey2 : Nat) (zB : Nat → Nat)
    (i j : Nat) (h1 : ¬ isdigit (zA i) = true) (h2 : zA i ≠ zB j) :
    loopBody nKey1 zA nKey2 zB i j = Step.ret ((zA i : Int) - (zB j : Int)) := by
  unfold loopBody
  simp only [if_neg h1, if_pos (show (zA i : Int) - (zB j : Int) ≠ 0 by omega)]

theorem loopBody_byte_eq (nKey1 : Nat) (zA : Nat → Nat) (nKey2 : Nat) (zB : Nat → Nat)
    (i j : Nat) (h1 : ¬ isdigit (zA i) = true) (h2 : zA i = zB j) :
    loopBody nKey1 zA nKey2 zB i j = Step.next (i + 1) (j + 1) := by
  unfold loopBody
  simp only [if_neg h1, if_neg (show ¬ (zA i : Int) - (zB j : Int) ≠ 0 by omega)]

/-- One pass through the loop body, read on the token sequences ahead of the
cursors: a returned value has the sign of their comparison, and a pass that
continues leaves the comparison unchanged. -/
theorem loopBody_key (nKey1 : Nat) (zA : Nat → Nat) (nKey2 : Nat) (zB : Nat → Nat)
    (i j : Nat) (hi : i < nKey1) (hj : j < nKey2) :
    (∀ x, loopBody nKey1 zA nKey2 zB i j = Step.ret x →
      Int.sign x = keyCmp (key (bytesFrom zA nKey1 i)) (key (bytesFrom zB nKey2 j))) ∧
    (∀ i2 j2, loopBody nKey1 zA nKey2 zB i j = Step.next i2 j2 →
      keyCmp (key (bytesFrom zA nKey1 i2)) (key (bytesFrom zB nKey2 j2)) =
        keyCmp (key (bytesFrom zA nKey1 i)) (key (bytesFrom zB nKey2 j))) := by
  have hA : headDigit (bytesFrom zA nKey1 i) = true ↔ isdigit (zA i) = true := by
    rw [headDigit_bytesFrom]; exact ⟨fun h => h.2, fun h => ⟨hi, h⟩⟩
  have hB : headDigit (bytesFrom zB nKey2 j) = true ↔ isdigit (zB j) = true := by
    rw [headDigit_bytesFrom]; exact ⟨fun h => h.2, fun h => ⟨hj, h⟩⟩
  by_cases h1 : isdigit (zA i) = true
  · by_cases h2 : isdigit (zB j) = true
    · -- both cursors are at a digit
      have key := digitBranch_key (bytesFrom zA nKey1 i) (bytesFrom zB nKey2 j)
        (hA.2 h1) (hB.2 h2)
      have eA : (bytesFrom zA nKey1 i).drop (zerosLen (bytesFrom zA nKey1 i)) =
          bytesFrom zA nKey1 (skipZeros zA nKey1 i) := by
        rw [bytesFrom_drop, ← skipZeros_eq]
      have eB : (bytesFrom zB nKey2 j).drop (zerosLen (bytesFrom zB nKey2 j)) =
          bytesFrom zB nKey2 (skipZeros zB nKey2 j) := by
        rw [bytesFrom_drop, ← skipZeros_eq]
      have hk := commonRun_eq zA nKey1 zB nKey2 (skipZeros zA nKey1 i)
        (skipZeros zB nKey2 j) 0
      rw [Nat.zero_add, Nat.add_zero, Nat.add_zero] at hk
      rw [eA, eB, ← hk] at key
      simp only [bytesFrom_drop, headDigit_bytesFrom] at key
      have hle := commonRun_le zA nKey1 zB nKey2 (skipZeros zA nKey1 i)
        (skipZeros zB nKey2 j) 0 (skipZeros_le zA nKey1 i hi.le)
        (skipZeros_le zB nKey2 j hj.le)
      rw [← memcmp_eq zA nKey1 zB nKey2 _ _ _ hle.1 hle.2] at key
      obtain ⟨k1, k2, k3⟩ := key
      unfold loopBody
      simp only [h1, h2, if_true, not_true_eq_false, if_false]
      split_ifs with h3 h4 h5
      · refine ⟨fun x hx => ?_, fun i2 j2 hx => by cases hx⟩
        rw [← Step.ret.inj hx, k1 h3]
        rfl
      · refine ⟨fun x hx => ?_, fun i2 j2 hx => by cases hx⟩
        rw [← Step.ret.inj hx, k2 h3 h4]
        rfl
      · refine ⟨fun x hx => ?_, fun i2 j2 hx => by cases hx⟩
        rw [← Step.ret.inj hx]
        exact (k3 h3 h4).1 h5
      · refine ⟨fun x hx => (by cases hx), fun i2 j2 hx => ?_⟩
        cases hx
        exact (k3 h3 h4).2 (not_not.1 h5)
    · -- a digit against a byte that is not one
      have d1 := (isdigit_iff (zA i)).1 h1
      have d2 : ¬ (48 ≤ zB j ∧ zB j ≤ 57) := fun h => h2 ((isdigit_iff (zB j)).2 h)
      rw [loopBody_digit_byte nKey1 zA nKey2 zB i j h1 h2]
      refine ⟨fun x hx => ?_, fun i2 j2 hx => by cases hx⟩
      rw [← Step.ret.inj hx, key_of_headDigit _ (hA.2 h1), bytesFrom_lt zB nKey2 j hj,
        key_cons_byte _ _ h2, keyCmp_num_byte]
      split_ifs with h3
      · exact Int.sign_eq_one_of_pos (by omega)
      · exact Int.sign_eq_neg_one_of_neg (by omega)
  · have d1 : ¬ (48 ≤ zA i ∧ zA i ≤ 57) := fun h => h1 ((isdigit_iff (zA i)).2 h)
    rw [bytesFrom_lt zA nKey1 i hi, key_cons_byte _ _ h1]
    by_cases h2 : isdigit (zB j) = true
    · have d2 := (isdigit_iff (zB j)).1 h2
      rw [loopBody_byte_ne nKey1 zA nKey2 zB i j h1 (by omega)]
      refine ⟨fun x hx => ?_, fun i2 j2 hx => by cases hx⟩
      rw [← Step.ret.inj hx, key_of_headDigit _ (hB.2 h2), keyCmp_byte_num]
      split_ifs with h3
      · exact Int.sign_eq_neg_one_of_neg (by omega)
      · exact Int.sign_eq_one_of_pos (by omega)
    · rw [bytesFrom_lt zB nKey2 j hj, key_cons_byte _ _ h2, keyCmp_byte_byte]
      by_cases h3 : zA i = zB j
      · rw [loopBody_byte_eq nKey1 zA nKey2 zB i j h1 h3]
        refine ⟨fun x hx => (by cases hx), fun i2 j2 hx => ?_⟩
        cases hx
        rw [if_neg (by omega), if_neg (by omega)]
      · rw [loopBody_byte_ne nKey1 zA nKey2 zB i j h1 h3]
        refine ⟨fun x hx => ?_, fun i2 j2 hx => by cases hx⟩
        rw [← Step.ret.inj hx]
        rcases Nat.lt_or_gt_of_ne h3 with h4 | h4
        · rw [if_pos h4]
          exact Int.sign_eq_neg_one_of_neg (by omega)
        · rw [if_neg (by omega), if_pos h4]
          exact Int.sign_eq_one_of_pos (by omega)

/-- The value the loop returns from cursors `i`, `j` has the sign of the
comparison of the token sequences of what lies ahead of the cursors. -/
theorem natSortLoop_sign (nKey1 : Nat) (zA : Nat → Nat) (nKey2 : Nat) (zB : Nat → Nat)
    (i j : Nat) (hi : i ≤ nKey1) (hj : j ≤ nKey2) :
    Int.sign (natSortLoop nKey1 zA nKey2 zB i j) =
      keyCmp (key (bytesFrom zA nKey1 i)) (key (bytesFrom zB nKey2 j)) := by
  obtain ⟨m, hm⟩ : ∃ m, (nKey1 + nKey2) - (i + j) = m := ⟨_, rfl⟩
  induction m using Nat.strong_induction_on generalizing i j with
  | _ m ih =>
    by_cases h : i < nKey1 ∧ j < nKey2
    · have hk := loopBody_key nKey1 zA nKey2 zB i j h.1 h.2
      cases hb : loopBody nKey1 zA nKey2 zB i j with
      | ret x =>
        rw [natSortLoop_ret nKey1 zA nKey2 zB i j x h hb]
        exact hk.1 x hb
      | next i2 j2 =>
        rw [natSortLoop_step nKey1 zA nKey2 zB i j i2 j2 h hb, ← hk.2 i2 j2 hb]
        have hn := loopBody_next nKey1 zA nKey2 zB i j i2 j2 h.1 h.2 hb
        exact ih _ (by omega) i2 j2 hn.2.2.2.1 hn.2.2.2.2 rfl
    · rw [natSortLoop_exit nKey1 zA nKey2 zB i j h]
      by_cases h1 : i < nKey1
      · have h2 : j = nKey2 := by omega
        rw [bytesFrom_lt zA nKey1 i h1, bytesFrom_ge zB nKey2 j (by omega)]
        cases hkA : key (zA i :: bytesFrom zA nKey1 (i + 1)) with
        | nil => exact absurd hkA (key_ne_nil _ _)
        | cons t ts =>
          rw [key_nil]
          simp only [keyCmp]
          exact Int.sign_eq_one_of_pos (by omega)
      · rw [bytesFrom_ge zA nKey1 i (by omega)]
        by_cases h2 : j < nKey2
        · rw [bytesFrom_lt zB nKey2 j h2]
          cases hkB : key (zB j :: bytesFrom zB nKey2 (j + 1)) with
          | nil => exact absurd hkB (key_ne_nil _ _)
          | cons t ts =>
            rw [key_nil]
            simp only [keyCmp]
            exact Int.sign_eq_neg_one_of_neg (by omega)
        · rw [bytesFrom_ge zB nKey2 j (by omega), key_nil]
          simp only [keyCmp]
          have : ((nKey1 : Int) - (i : Int)) - ((nKey2 : Int) - (j : Int)) = 0 := by omega
          rw [this]
          rfl

/-! ## The order of token sequences -/

theorem Tok.lt_irrefl (t : Tok) : ¬ Tok.lt t t := by
  simp [Tok.lt]

theorem Tok.lt_asymm (s t : Tok) (h : Tok.lt s t) : ¬ Tok.lt t s := by
  unfold Tok.lt at *
  omega

theorem Tok.lt_trans (s t u : Tok) (h1 : Tok.lt s t) (h2 : Tok.lt t u) : Tok.lt s u := by
  unfold Tok.lt at *
  omega

theorem Tok.eq_of_not_lt (s t : Tok) (h1 : ¬ Tok.lt s t) (h2 : ¬ Tok.lt t s) : s = t := by
  cases s with
  | byte c =>
    cases t with
    | byte d =>
      have : c = d := by
        simp only [Tok.lt, Tok.rank] at h1 h2
        split_ifs at h1 h2 <;> omega
      rw [this]
    | num v =>
      exfalso
      simp only [Tok.lt, Tok.rank] at h1 h2
      split_ifs at h1 h2 <;> omega
  | num u =>
    cases t with
    | byte d =>
      exfalso
      simp only [Tok.lt, Tok.rank] at h1 h2
      split_ifs at h1 h2 <;> omega
    | num v =>
      have : u = v := by
        simp [Tok.lt, Tok.rank] at h1 h2
        omega
      rw [this]

theorem keyCmp_cons_le (a b : Tok) (s t : List Tok) :
    keyCmp (a :: s) (b :: t) ≤ 0 ↔ Tok.lt a b ∨ (a = b ∧ keyCmp s t ≤ 0) := by
  simp only [keyCmp]
  by_cases h1 : Tok.lt a b
  · simp [h1]
  · by_cases h2 : Tok.lt b a
    · have hne : a ≠ b := fun h => Tok.lt_irrefl b (h ▸ h2)
      simp [h1, h2, hne]
    · have he := Tok.eq_of_not_lt a b h1 h2
      subst he
      simp [h1]

theorem keyCmp_cons_lt (a b : Tok) (s t : List Tok) :
    keyCmp (a :: s) (b :: t) < 0 ↔ Tok.lt a b ∨ (a = b ∧ keyCmp s t < 0) := by
  simp only [keyCmp]
  by_cases h1 : Tok.lt a b
  · simp [h1]
  · by_cases h2 : Tok.lt b a
    · have hne : a ≠ b := fun h => Tok.lt_irrefl b (h ▸ h2)
      simp [h1, h2, hne]
    · have he := Tok.eq_of_not_lt a b h1 h2
      subst he
      simp [h1]

theorem keyCmp_self (s : List Tok) : keyCmp s s = 0 := by
  induction s with
  | nil => rfl
  | cons a s ih => simp [keyCmp, Tok.lt_irrefl, ih]

theorem keyCmp_antisymm (s t : List Tok) : keyCmp s t = - keyCmp t s := by
  induction s generalizing t with
  | nil => cases t <;> simp [keyCmp]
  | cons a s ih =>
    cases t with
    | nil => simp [keyCmp]
    | cons b t =>
      simp only [keyCmp]
      by_cases h1 : Tok.lt a b
      · simp [h1, Tok.lt_asymm a b h1]
      · by_cases h2 : Tok.lt b a
        · simp [h1, h2]
        · simp [h1, h2, ih t]

theorem keyCmp_eq_zero_iff (s t : List Tok) : keyCmp s t = 0 ↔ s = t := by
  induction s generalizing t with
  | nil => cases t <;> simp [keyCmp]
  | cons a s ih =>
    cases t with
    | nil => simp [keyCmp]
    | cons b t =>
      simp only [keyCmp]
      by_cases h1 : Tok.lt a b
      · have hne : a ≠ b := fun h => Tok.lt_irrefl b (h ▸ h1)
        simp [h1, hne]
      · by_cases h2 : Tok.lt b a
        · have hne : a ≠ b := fun h => Tok.lt_irrefl b (h ▸ h2)
          simp [h1, h2, hne]
        · have he := Tok.eq_of_not_lt a b h1 h2
          subst he
          simp [h1, ih t]

theorem keyCmp_trans (s t u : List Tok) (h1 : keyCmp s t ≤ 0) (h2 : keyCmp t u ≤ 0) :
    keyCmp s u ≤ 0 ∧ (keyCmp s t < 0 ∨ keyCmp t u < 0 → keyCmp s u < 0) := by
  induction s generalizing t u with
  | nil =>
    cases u with
    | nil =>
      cases t with
      | nil => simp [keyCmp]
      | cons b t => simp [keyCmp] at h2
    | cons c u => simp [keyCmp]
  | cons a s ih =>
    cases t with
    | nil => simp [keyCmp] at h1
    | cons b t =>
      cases u with
      | nil => simp [keyCmp] at h2
      | cons c u =>
        rw [keyCmp_cons_le] at h1 h2 ⊢
        rw [keyCmp_cons_lt, keyCmp_cons_lt, keyCmp_cons_lt]
        rcases h1 with h1 | ⟨rfl, h1⟩
        · rcases h2 with h2 | ⟨rfl, h2⟩
          · exact ⟨Or.inl (Tok.lt_trans a b c h1 h2), fun _ => Or.inl (Tok.lt_trans a b c h1 h2)⟩
          · exact ⟨Or.inl h1, fun _ => Or.inl h1⟩
        · rcases h2 with h2 | ⟨rfl, h2⟩
          · exact ⟨Or.inl h2, fun _ => Or.inl h2⟩
          · have := ih t u h1 h2
            refine ⟨Or.inr ⟨rfl, this.1⟩, fun h => ?_⟩
            rcases h with h | h
            · rcases h with h | h
              · exact Or.inl h
              · exact Or.inr ⟨rfl, this.2 (Or.inl h.2)⟩
            · rcases h with h | h
              · exact Or.inl h
              · exact Or.inr ⟨rfl, this.2 (Or.inr h.2)⟩

theorem keyCmp_append_left (p s t : List Tok) : keyCmp (p ++ s) (p ++ t) = keyCmp s t := by
  induction p with
  | nil => rfl
  | cons a p ih => simp [keyCmp, Tok.lt_irrefl, ih]

theorem keyCmp_range (s t : List Tok) : keyCmp s t = -1 ∨ keyCmp s t = 0 ∨ keyCmp s t = 1 := by
  induction s generalizing t with
  | nil => cases t <;> simp [keyCmp]
  | cons a s ih =>
    cases t with
    | nil => simp [keyCmp]
    | cons b t =>
      simp only [keyCmp]
      split_ifs
      · simp
      · simp
      · exact ih t

/-! ## From the collating function to the token sequences -/

theorem bytesFrom_mem (X : List Nat) (past : Nat → Nat) :
    bytesFrom (mem X past) X.length 0 = X := by
  apply List.ext_getElem
  · simp [bytesFrom]
  · intro n h1 h2
    simp [bytesFrom, mem, h2]

theorem natSortCollFunc_sign (nKey1 : Nat) (zA : Nat → Nat) (nKey2 : Nat) (zB : Nat → Nat) :
    Int.sign (natSortCollFunc nKey1 zA nKey2 zB) =
      keyCmp (key (bytesFrom zA nKey1 0)) (key (bytesFrom zB nKey2 0)) :=
  natSortLoop_sign nKey1 zA nKey2 zB 0 0 (Nat.zero_le _) (Nat.zero_le _)

theorem natSortCollFunc_mem_sign (A B : List Nat) (pastA pastB : Nat → Nat) :
    Int.sign (natSortCollFunc A.length (mem A pastA) B.length (mem B pastB)) =
      keyCmp (key A) (key B) := by
  rw [natSortCollFunc_sign, bytesFrom_mem, bytesFrom_mem]

theorem neg_iff_sign (x : Int) : x < 0 ↔ Int.sign x = -1 :=
  Int.sign_eq_neg_one_iff_neg.symm

theorem pos_iff_sign (x : Int) : 0 < x ↔ Int.sign x = 1 :=
  Int.sign_eq_one_iff_pos.symm

theorem zero_iff_sign (x : Int) : x = 0 ↔ Int.sign x = 0 :=
  Int.sign_eq_zero_iff_zero.symm

theorem nonpos_iff_sign (x : Int) : x ≤ 0 ↔ Int.sign x ≤ 0 := by
  rcases lt_trichotomy x 0 with h | h | h
  · rw [Int.sign_eq_neg_one_of_neg h]; simp [h.le]
  · subst h; simp
  · rw [Int.sign_eq_one_of_pos h]; simp [h]

theorem neg_iff_sign_neg (x : Int) : x < 0 ↔ Int.sign x < 0 := by
  rcases lt_trichotomy x 0 with h | h | h
  · rw [Int.sign_eq_neg_one_of_neg h]; simp [h]
  · subst h; simp
  · rw [Int.sign_eq_one_of_pos h]; simp [h.le]

theorem natSortFuel_eq (nKey1 : Nat) (zA : Nat → Nat) (nKey2 : Nat) (zB : Nat → Nat)
    (fuel i j : Nat) (hi : i ≤ nKey1) (hj : j ≤ nKey2)
    (hf : (nKey1 + nKey2) - (i + j) ≤ fuel) :
    natSortFuel nKey1 zA nKey2 zB fuel i j = some (natSortLoop nKey1 zA nKey2 zB i j) := by
  induction fuel generalizing i j with
  | zero =>
    have h : ¬ (i < nKey1 ∧ j < nKey2) := by omega
    rw [natSortFuel, if_neg h, natSortLoop_exit nKey1 zA nKey2 zB i j h]
  | succ fuel ih =>
    by_cases h : i < nKey1 ∧ j < nKey2
    · rw [natSortFuel, if_pos h]
      cases hb : loopBody nKey1 zA nKey2 zB i j with
      | ret x => rw [natSortLoop_ret nKey1 zA nKey2 zB i j x h hb]
      | next i2 j2 =>
        have hn := loopBody_next nKey1 zA nKey2 zB i j i2 j2 h.1 h.2 hb
        rw [natSortLoop_step nKey1 zA nKey2 zB i j i2 j2 h hb]
        exact ih i2 j2 hn.2.2.2.1 hn.2.2.2.2 (by omega)
    · rw [natSortFuel, if_neg h, natSortLoop_exit nKey1 zA nKey2 zB i j h]

/-- In the both-digits branch a `'0'` is skipped in one of the keys or the
common run is at least one byte long. -/
theorem digit_progress (nKey1 : Nat) (zA : Nat → Nat) (nKey2 : Nat) (zB : Nat → Nat)
    (i j : Nat) (hi : i < nKey1) (hj : j < nKey2)
    (h1 : isdigit (zA i) = true) (h2 : isdigit (zB j) = true) :
    i < skipZeros zA nKey1 i ∨ j < skipZeros zB nKey2 j ∨
      1 ≤ commonRun zA nKey1 zB nKey2 (skipZeros zA nKey1 i) (skipZeros zB nKey2 j) 0 := by
  by_cases ha : zA i = 48
  · exact Or.inl (skipZeros_gt zA nKey1 i ha hi)
  · by_cases hb : zB j = 48
    · exact Or.inr (Or.inl (skipZeros_gt zB nKey2 j hb hj))
    · refine Or.inr (Or.inr ?_)
      rw [skipZeros_eq_self zA nKey1 i ha, skipZeros_eq_self zB nKey2 j hb, commonRun,
        if_pos ⟨by omega, by simpa using h1, by omega, by simpa using h2⟩]
      exact commonRun_ge zA nKey1 zB nKey2 i j 1

theorem keyAux_none_digit (c : Nat) (cs : List Nat) (h : isdigit c = true) :
    keyAux none (c :: cs) = keyAux (some (c - 48)) cs := by
  rw [keyAux, if_pos h]

theorem keyAux_some_digit (v c : Nat) (cs : List Nat) (h : isdigit c = true) :
    keyAux (some v) (c :: cs) = keyAux (some (10 * v + (c - 48))) cs := by
  rw [keyAux, if_pos h]

theorem keyAux_none_byte (c : Nat) (cs : List Nat) (h : ¬ isdigit c = true) :
    keyAux none (c :: cs) = Tok.byte c :: keyAux none cs := by
  rw [keyAux, if_neg h]

theorem keyAux_some_byte (v c : Nat) (cs : List Nat) (h : ¬ isdigit c = true) :
    keyAux (some v) (c :: cs) = Tok.num v :: Tok.byte c :: keyAux none cs := by
  rw [keyAux, if_neg h]

theorem keyAux_append (c : Nat) (cs X : List Nat) (o : Option Nat)
    (h : endsInDigit (c :: cs) = false) :
    keyAux o (c :: cs ++ X) = keyAux o (c :: cs) ++ key X := by
  induction cs generalizing c o with
  | nil =>
    have hc : ¬ isdigit c = true := by simpa [endsInDigit] using h
    cases o <;> simp [keyAux, hc, key]
  | cons d ds ih =>
    have h2 : endsInDigit (d :: ds) = false := by simpa [endsInDigit] using h
    rw [List.cons_append]
    by_cases hc : isdigit c = true
    · cases o with
      | none =>
        rw [keyAux_none_digit c _ hc, keyAux_none_digit c _ hc]
        exact ih d (some (c - 48)) h2
      | some v =>
        rw [keyAux_some_digit v c _ hc, keyAux_some_digit v c _ hc]
        exact ih d (some (10 * v + (c - 48))) h2
    · cases o with
      | none =>
        rw [keyAux_none_byte c _ hc, keyAux_none_byte c _ hc, ih d none h2]
        rfl
      | some v =>
        rw [keyAux_some_byte v c _ hc, keyAux_some_byte v c _ hc, ih d none h2]
        rfl

theorem key_append (P X : List Nat) (h : endsInDigit P = false) :
    key (P ++ X) = key P ++ key X := by
  cases P with
  | nil => simp [key_nil]
  | cons c cs => exact keyAux_append c cs X none h

theorem digitsLen_append (D S : List Nat) (hD : ∀ c ∈ D, isdigit c = true) :
    digitsLen (D ++ S) = D.length + digitsLen S := by
  induction D with
  | nil => simp
  | cons c cs ih =>
    have hc : isdigit c = true := hD c (List.mem_cons_self _ _)
    have := ih (fun x hx => hD x (List.mem_cons_of_mem _ hx))
    rw [List.cons_append]
    simp only [digitsLen, if_pos hc, this, List.length_cons]
    omega

theorem digitsLen_of_not_headDigit (S : List Nat) (h : headDigit S = false) :
    digitsLen S = 0 := by
  cases S with
  | nil => rfl
  | cons c cs =>
    have hc : ¬ isdigit c = true := by simpa [headDigit] using h
    simp [digitsLen, hc]

theorem runVal_append (D S : List Nat) (hD : ∀ c ∈ D, isdigit c = true) (acc : Nat) :
    acc * 10 ^ digitsLen (D ++ S) + runVal (D ++ S) =
      D.foldl (fun v c => 10 * v + (c - 48)) acc * 10 ^ digitsLen S + runVal S := by
  induction D generalizing acc with
  | nil => simp
  | cons c cs ih =>
    have hc : isdigit c = true := hD c (List.mem_cons_self _ _)
    have := ih (fun x hx => hD x (List.mem_cons_of_mem _ hx)) (10 * acc + (c - 48))
    rw [List.cons_append]
    simp only [digitsLen, runVal, if_pos hc, List.foldl_cons]
    rw [← this]
    ring

/-- The tokens of a digit string followed by something that does not start
with a digit: the number the string denotes, then the tokens of the rest. -/
theorem key_digits_append (D S : List Nat) (hD : ∀ c ∈ D, isdigit c = true)
    (hne : D ≠ []) (hS : headDigit S = false) :
    key (D ++ S) = Tok.num (decVal D) :: key S := by
  have hh : headDigit (D ++ S) = true := by
    cases D with
    | nil => exact absurd rfl hne
    | cons c cs => simpa [headDigit] using hD c (List.mem_cons_self _ _)
  have h0 := digitsLen_of_not_headDigit S hS
  have hv := runVal_append D S hD 0
  rw [h0, runVal_of_digitsLen_zero S h0] at hv
  simp only [Nat.zero_mul, Nat.zero_add, pow_zero, Nat.mul_one, Nat.add_zero] at hv
  rw [key_of_headDigit _ hh, hv, digitsLen_append D S hD, h0, Nat.add_zero,
    List.drop_left]
  rfl

theorem key_zero_cons (R : List Nat) (h : headDigit R = true) : key (48 :: R) = key R := by
  rw [key_of_headDigit (48 :: R) (by simp [headDigit, isdigit_48]), key_of_headDigit R h]
  simp [runVal, digitsLen, isdigit_48]

theorem headDigit_zeros_append (m : Nat) (R : List Nat) (h : headDigit R = true) :
    headDigit (List.replicate m 48 ++ R) = true := by
  cases m with
  | zero => simpa using h
  | succ m => simp [List.replicate_succ, headDigit, isdigit_48]

theorem key_zeros_append (m : Nat) (R : List Nat) (h : headDigit R = true) :
    key (List.replicate m 48 ++ R) = key R := by
  induction m with
  | zero => simp
  | succ m ih =>
    rw [List.replicate_succ, List.cons_append,
      key_zero_cons _ (headDigit_zeros_append m R h), ih]

theorem key_no_digit (A : List Nat) (h : ∀ c ∈ A, isdigit c = false) :
    key A = A.map Tok.byte := by
  induction A with
  | nil => rfl
  | cons c cs ih =>
    have hc : ¬ isdigit c = true := by
      rw [h c (List.mem_cons_self _ _)]
      simp
    rw [key_cons_byte c cs hc, ih (fun x hx => h x (List.mem_cons_of_mem _ hx))]
    rfl

theorem keyCmp_map_byte (A B : List Nat) :
    keyCmp (A.map Tok.byte) (B.map Tok.byte) = lexCmp A B := by
  induction A generalizing B with
  | nil => cases B <;> simp [keyCmp, lexCmp]
  | cons c cs ih =>
    cases B with
    | nil => simp [keyCmp, lexCmp]
    | cons d ds =>
      rw [List.map_cons, List.map_cons, keyCmp_byte_byte, ih ds]
      rfl

theorem endsInDigit_cons (c : Nat) (P : List Nat) (h : P ≠ []) :
    endsInDigit (c :: P) = endsInDigit P := by
  cases P with
  | nil => exact absurd rfl h
  | cons d ds => rfl

/-- Every list splits into a part that does not end in a digit and a trailing
run of digits. -/
theorem exists_prefix_run (A : List Nat) :
    ∃ P R, A = P ++ R ∧ endsInDigit P = false ∧ ∀ c ∈ R, isdigit c = true := by
  induction A with
  | nil => exact ⟨[], [], rfl, rfl, by simp⟩
  | cons c cs ih =>
    obtain ⟨P, R, hA, hP, hR⟩ := ih
    cases P with
    | nil =>
      by_cases hc : isdigit c = true
      · refine ⟨[], c :: R, by simp [hA], rfl, ?_⟩
        intro x hx
        rcases List.mem_cons.1 hx with rfl | hx
        · exact hc
        · exact hR x hx
      · refine ⟨[c], R, by simp [hA], by simpa [endsInDigit] using hc, hR⟩
    | cons d ds =>
      refine ⟨c :: d :: ds, R, by simp [hA], ?_, hR⟩
      rw [endsInDigit_cons c (d :: ds) (by simp)]
      exact hP

theorem digitsLen_all (R : List Nat) (hR : ∀ c ∈ R, isdigit c = true) :
    digitsLen R = R.length := by
  have := digitsLen_append R [] hR
  simpa [digitsLen] using this

/-- A list that is all digits and whose value is 0 is all zeros. -/
theorem zeros_of_runVal_zero (T : List Nat) (h1 : digitsLen T = T.length)
    (h2 : runVal T = 0) : T = List.replicate T.length 48 := by
  induction T with
  | nil => rfl
  | cons c cs ih =>
    by_cases hc : isdigit c = true
    · simp only [digitsLen, if_pos hc, List.length_cons, Nat.add_right_cancel_iff] at h1
      simp only [runVal, if_pos hc, Nat.add_eq_zero, mul_eq_zero] at h2
      have d := (isdigit_iff c).1 hc
      have hp : 10 ^ digitsLen cs ≠ 0 := by positivity
      have hc0 : c = 48 := by
        rcases h2.1 with h | h
        · omega
        · exact absurd h hp
      rw [List.length_cons, List.replicate_succ, ← ih h1 h2.2, hc0]
    · simp [digitsLen, hc] at h1

theorem key_zeros (m : Nat) : key (List.replicate (m + 1) 48) = [Tok.num 0] := by
  induction m with
  | zero => decide
  | succ m ih =>
    rw [List.replicate_succ, key_zero_cons _ (by simp [List.replicate_succ, headDigit, isdigit_48]),
      ih]

theorem key_eq_nil (T : List Nat) (h : key T = []) : T = [] := by
  cases T with
  | nil => rfl
  | cons c cs => exact absurd h (key_ne_nil c cs)

/-- A trailing digit run `R` against the same run continued by `T`. -/
theorem keyCmp_run_extend (R T : List Nat) (hR : ∀ c ∈ R, isdigit c = true) (hT : T ≠ []) :
    keyCmp (key R) (key (R ++ T)) ≤ 0 ∧
      (keyCmp (key R) (key (R ++ T)) = 0 →
        R ≠ [] ∧ R = List.replicate R.length 48 ∧ T = List.replicate T.length 48) := by
  cases hR0 : R with
  | nil =>
    obtain ⟨c, cs, rfl⟩ := List.exists_cons_of_ne_nil hT
    rw [List.nil_append, key_nil]
    cases hk : key (c :: cs) with
    | nil => exact absurd hk (key_ne_nil c cs)
    | cons t ts => simp [keyCmp]
  | cons r rs =>
    rw [← hR0]
    have hne : R ≠ [] := by rw [hR0]; simp
    have hhR : headDigit R = true := by
      rw [hR0]
      simpa [headDigit] using hR r (by rw [hR0]; exact List.mem_cons_self _ _)
    have hhRT : headDigit (R ++ T) = true := by
      rw [hR0] at hhR ⊢
      simpa [headDigit] using hhR
    have hlen := digitsLen_all R hR
    have hv := runVal_append R T hR 0
    have hv0 := runVal_append R [] hR 0
    simp only [List.append_nil, digitsLen, runVal, pow_zero, Nat.mul_one, Nat.add_zero,
      Nat.zero_mul, Nat.zero_add] at hv0
    simp only [Nat.zero_mul, Nat.zero_add] at hv
    rw [← hv0] at hv
    rw [key_of_headDigit R hhR, key_of_headDigit (R ++ T) hhRT, hlen, List.drop_length,
      digitsLen_append R T hR, hv, key_nil, keyCmp_num_num, ← List.drop_drop,
      List.drop_left]
    have hpow : 1 ≤ 10 ^ digitsLen T := Nat.one_le_pow _ _ (by norm_num)
    have hmul : runVal R * 1 ≤ runVal R * 10 ^ digitsLen T := Nat.mul_le_mul_left _ hpow
    by_cases hlt : runVal R < runVal R * 10 ^ digitsLen T + runVal T
    · rw [if_pos hlt]
      exact ⟨by decide, fun h => absurd h (by decide)⟩
    · have heq : runVal R * 10 ^ digitsLen T + runVal T = runVal R := by omega
      rw [if_neg hlt, if_neg (by omega)]
      cases hk : key (T.drop (digitsLen T)) with
      | nil =>
        refine ⟨by simp [keyCmp], fun _ => ?_⟩
        have hd := key_eq_nil _ hk
        have hTl : digitsLen T = T.length := by
          have h1 := digitsLen_le T
          have h2 : T.length ≤ digitsLen T := List.drop_eq_nil_iff.1 hd
          omega
        have hTpos : 1 ≤ digitsLen T := by
          rw [hTl]
          exact List.length_pos.2 hT
        have h10 : 10 ≤ 10 ^ digitsLen T := by
          calc 10 = 10 ^ 1 := by norm_num
            _ ≤ 10 ^ digitsLen T := Nat.pow_le_pow_right (by norm_num) hTpos
        have hmul10 : runVal R * 10 ≤ runVal R * 10 ^ digitsLen T :=
          Nat.mul_le_mul_left _ h10
        have hR0v : runVal R = 0 := by omega
        have hT0v : runVal T = 0 := by omega
        exact ⟨hne, zeros_of_runVal_zero R hlen hR0v, zeros_of_runVal_zero T hTl hT0v⟩
      | cons t ts =>
        exact ⟨by simp [keyCmp], fun h => absurd h (by simp [keyCmp])⟩

/-! ## The loop on the bytes ahead of the cursors, shared prefixes, reachable cursors, normal forms -/

theorem headD_bytesFrom (z : Nat → Nat) (n i : Nat) (h : i < n) :
    (bytesFrom z n i).headD 0 = z i := by
  rw [bytesFrom_lt z n i h]
  rfl

/-- The loop body depends on the memory only through the bytes of the two keys
that lie ahead of the cursors. -/
theorem loopBody_eq_listBody (nKey1 : Nat) (zA : Nat → Nat) (nKey2 : Nat) (zB : Nat → Nat)
    (i j : Nat) (hi : i < nKey1) (hj : j < nKey2) :
    loopBody nKey1 zA nKey2 zB i j =
      Step.shift i j (listBody (bytesFrom zA nKey1 i) (bytesFrom zB nKey2 j)) := by
  have eA : (bytesFrom zA nKey1 i).drop (zerosLen (bytesFrom zA nKey1 i)) =
      bytesFrom zA nKey1 (skipZeros zA nKey1 i) := by
    rw [bytesFrom_drop, ← skipZeros_eq]
  have eB : (bytesFrom zB nKey2 j).drop (zerosLen (bytesFrom zB nKey2 j)) =
      bytesFrom zB nKey2 (skipZeros zB nKey2 j) := by
    rw [bytesFrom_drop, ← skipZeros_eq]
  have hk := commonRun_eq zA nKey1 zB nKey2 (skipZeros zA nKey1 i)
    (skipZeros zB nKey2 j) 0
  rw [Nat.zero_add, Nat.add_zero, Nat.add_zero] at hk
  have hle := commonRun_le zA nKey1 zB nKey2 (skipZeros zA nKey1 i)
    (skipZeros zB nKey2 j) 0 (skipZeros_le zA nKey1 i hi.le)
    (skipZeros_le zB nKey2 j hj.le)
  have hm := memcmp_eq zA nKey1 zB nKey2 _ _ _ hle.1 hle.2
  have sA := skipZeros_eq zA nKey1 i
  have sB := skipZeros_eq zB nKey2 j
  unfold loopBody listBody
  simp only [headD_bytesFrom zA nKey1 i hi, headD_bytesFrom zB nKey2 j hj, eA, eB, ← hk,
    bytesFrom_drop, headDigit_bytesFrom, ← hm]
  split_ifs
  all_goals simp only [Step.shift]
  rw [sA, sB, Nat.add_assoc, Nat.add_assoc]

/-- The value of the loop depends only on the bytes of the two keys that lie
ahead of the cursors. -/
theorem natSortLoop_congr (nKey1 : Nat) (zA : Nat → Nat) (nKey2 : Nat) (zB : Nat → Nat)
    (nKey1' : Nat) (zA' : Nat → Nat) (nKey2' : Nat) (zB' : Nat → Nat)
    (i j i' j' : Nat) (hi : i ≤ nKey1) (hj : j ≤ nKey2) (hi' : i' ≤ nKey1') (hj' : j' ≤ nKey2')
    (hA : bytesFrom zA nKey1 i = bytesFrom zA' nKey1' i')
    (hB : bytesFrom zB nKey2 j = bytesFrom zB' nKey2' j') :
    natSortLoop nKey1 zA nKey2 zB i j = natSortLoop nKey1' zA' nKey2' zB' i' j' := by
  obtain ⟨m, hm⟩ : ∃ m, (nKey1 + nKey2) - (i + j) = m := ⟨_, rfl⟩
  induction m using Nat.strong_induction_on generalizing i j i' j' with
  | _ m ih =>
    have lA : nKey1 - i = nKey1' - i' := by
      have := congrArg List.length hA
      rwa [bytesFrom_length, bytesFrom_length] at this
    have lB : nKey2 - j = nKey2' - j' := by
      have := congrArg List.length hB
      rwa [bytesFrom_length, bytesFrom_length] at this
    by_cases h : i < nKey1 ∧ j < nKey2
    · have h' : i' < nKey1' ∧ j' < nKey2' := by omega
      have e := loopBody_eq_listBody nKey1 zA nKey2 zB i j h.1 h.2
      have e' := loopBody_eq_listBody nKey1' zA' nKey2' zB' i' j' h'.1 h'.2
      rw [← hA, ← hB] at e'
      cases hl : listBody (bytesFrom zA nKey1 i) (bytesFrom zB nKey2 j) with
      | ret x =>
        rw [hl] at e e'
        rw [natSortLoop_ret nKey1 zA nKey2 zB i j x h e,
          natSortLoop_ret nKey1' zA' nKey2' zB' i' j' x h' e']
      | next di dj =>
        rw [hl] at e e'
        have hn := loopBody_next nKey1 zA nKey2 zB i j _ _ h.1 h.2 e
        have hn' := loopBody_next nKey1' zA' nKey2' zB' i' j' _ _ h'.1 h'.2 e'
        rw [natSortLoop_step nKey1 zA nKey2 zB i j _ _ h e,
          natSortLoop_step nKey1' zA' nKey2' zB' i' j' _ _ h' e']
        refine ih _ (by omega) (i + di) (j + dj) (i' + di) (j' + dj) hn.2.2.2.1 hn.2.2.2.2
          hn'.2.2.2.1 hn'.2.2.2.2 ?_ ?_ rfl
        · rw [← bytesFrom_drop, ← bytesFrom_drop, hA]
        · rw [← bytesFrom_drop, ← bytesFrom_drop, hB]
    · have h' : ¬ (i' < nKey1' ∧ j' < nKey2') := by omega
      rw [natSortLoop_exit nKey1 zA nKey2 zB i j h,
        natSortLoop_exit nKey1' zA' nKey2' zB' i' j' h']
      omega

theorem bytesFrom_congr (z z' : Nat → Nat) (n i : Nat) (h : ∀ m, m < n → z m = z' m) :
    bytesFrom z n i = bytesFrom z' n i := by
  unfold bytesFrom
  apply List.map_congr_left
  intro m hm
  rw [List.mem_range'_1] at hm
  exact h m (by omega)

theorem zerosLen_le_digitsLen (a : List Nat) : zerosLen a ≤ digitsLen a := by
  have := digitsLen_dropZeros a
  omega

theorem digitsLen_lt_of_not_endsInDigit (Q : List Nat) (hne : Q ≠ [])
    (hQ : endsInDigit Q = false) : digitsLen Q < Q.length := by
  induction Q with
  | nil => exact absurd rfl hne
  | cons c cs ih =>
    by_cases hc : isdigit c = true
    · cases cs with
      | nil => simp [endsInDigit, hc] at hQ
      | cons d ds =>
        have := ih (by simp) (by simpa [endsInDigit] using hQ)
        simp only [digitsLen, if_pos hc, List.length_cons] at this ⊢
        omega
    · simp [digitsLen, hc]

theorem digitsLen_append_of_lt (X r : List Nat) (h : digitsLen X < X.length) :
    digitsLen (X ++ r) = digitsLen X := by
  induction X with
  | nil => simp at h
  | cons c cs ih =>
    rw [List.cons_append]
    by_cases hc : isdigit c = true
    · simp only [digitsLen, if_pos hc, List.length_cons] at h ⊢
      rw [ih (by omega)]
    · simp [digitsLen, hc]

theorem zerosLen_append_of_lt (X r : List Nat) (h : zerosLen X < X.length) :
    zerosLen (X ++ r) = zerosLen X := by
  induction X with
  | nil => simp at h
  | cons c cs ih =>
    rw [List.cons_append]
    by_cases hc : c = 48
    · simp only [zerosLen, if_pos hc, List.length_cons] at h ⊢
      rw [ih (by omega)]
    · simp [zerosLen, hc]

theorem cmpBytes_append_same (k : Nat) (X r1 r2 : List Nat) (h : k ≤ X.length) :
    cmpBytes k (X ++ r1) (X ++ r2) = 0 := by
  induction X generalizing k with
  | nil =>
    have : k = 0 := by simpa using h
    subst this
    exact cmpBytes_zero _ _
  | cons c cs ih =>
    cases k with
    | zero => exact cmpBytes_zero _ _
    | succ k =>
      rw [List.cons_append, List.cons_append]
      simp only [cmpBytes, ne_eq, not_true_eq_false, if_false]
      exact ih k (by simpa using h)

theorem endsInDigit_drop (Q : List Nat) (m : Nat) (h : m < Q.length) :
    endsInDigit (Q.drop m) = endsInDigit Q := by
  induction m generalizing Q with
  | zero => rfl
  | succ m ih =>
    cases Q with
    | nil => simp at h
    | cons c cs =>
      have hl : m < cs.length := by simpa using h
      rw [List.drop_succ_cons, ih cs hl, endsInDigit_cons c cs (List.ne_nil_of_length_pos (by omega))]

theorem listBody_same_byte (c : Nat) (a b : List Nat) (hc : ¬ isdigit c = true) :
    listBody (c :: a) (c :: b) = Step.next 1 1 := by
  simp [listBody, hc]

/-- On two keys that go on with the same bytes `Q`, where `Q` starts with a
digit and does not end in one, the pass takes the whole digit run on both
sides. -/
theorem listBody_same_run (Q ra rb : List Nat) (hh : headDigit Q = true)
    (hQ : endsInDigit Q = false) :
    listBody (Q ++ ra) (Q ++ rb) = Step.next (digitsLen Q) (digitsLen Q) := by
  have hne : Q ≠ [] := by
    intro h
    rw [h] at hh
    simp [headDigit] at hh
  have hdl := digitsLen_lt_of_not_endsInDigit Q hne hQ
  have hz := zerosLen_le_digitsLen Q
  have hsplit := digitsLen_dropZeros Q
  have hd1 : digitsLen (Q.drop (zerosLen Q)) < (Q.drop (zerosLen Q)).length := by
    rw [List.length_drop]
    omega
  have hheadA : (Q ++ ra).headD 0 = Q.headD 0 := by
    cases Q with
    | nil => exact absurd rfl hne
    | cons c cs => rfl
  have hheadB : (Q ++ rb).headD 0 = Q.headD 0 := by
    cases Q with
    | nil => exact absurd rfl hne
    | cons c cs => rfl
  have hdig : isdigit (Q.headD 0) = true := by
    cases Q with
    | nil => exact absurd rfl hne
    | cons c cs => simpa [headDigit] using hh
  have hkA : digitsLen (Q.drop (zerosLen Q) ++ ra) = digitsLen (Q.drop (zerosLen Q)) :=
    digitsLen_append_of_lt _ _ hd1
  have hkB : digitsLen (Q.drop (zerosLen Q) ++ rb) = digitsLen (Q.drop (zerosLen Q)) :=
    digitsLen_append_of_lt _ _ hd1
  have hA : ¬ headDigit ((Q.drop (zerosLen Q) ++ ra).drop
      (digitsLen (Q.drop (zerosLen Q)))) = true := by
    rw [headDigit_drop _ _ (by omega)]
    omega
  have hB : ¬ headDigit ((Q.drop (zerosLen Q) ++ rb).drop
      (digitsLen (Q.drop (zerosLen Q)))) = true := by
    rw [headDigit_drop _ _ (by omega)]
    omega
  unfold listBody
  simp only [hheadA, hheadB, hdig, if_true, not_true_eq_false, if_false,
    zerosLen_append_of_lt Q ra (by omega), zerosLen_append_of_lt Q rb (by omega),
    List.drop_append_of_le_length (show zerosLen Q ≤ Q.length by omega),
    commonLen_eq_min, hkA, hkB, Nat.min_self, hA, hB,
    cmpBytes_append_same _ _ ra rb hd1.le]
  simp only [ne_eq, not_true_eq_false, if_false]
  rw [← hsplit]
  simp

/-- The scan across a stretch of bytes `Q` that the two keys share from their
cursors on, and that does not end in a digit, brings both cursors to the end of
the stretch. -/
theorem natSortLoop_shared (nKey1 : Nat) (zA : Nat → Nat) (nKey2 : Nat) (zB : Nat → Nat)
    (Q ra rb : List Nat) (i j : Nat) (hQ : endsInDigit Q = false)
    (hA : bytesFrom zA nKey1 i = Q ++ ra) (hB : bytesFrom zB nKey2 j = Q ++ rb) :
    natSortLoop nKey1 zA nKey2 zB i j =
      natSortLoop nKey1 zA nKey2 zB (i + Q.length) (j + Q.length) := by
  obtain ⟨m, hm⟩ : ∃ m, Q.length = m := ⟨_, rfl⟩
  induction m using Nat.strong_induction_on generalizing Q i j with
  | _ m ih =>
    cases hQc : Q with
    | nil => simp
    | cons c cs =>
      have hne : Q ≠ [] := by rw [hQc]; simp
      have hi : i < nKey1 := by
        have := congrArg List.length hA
        rw [bytesFrom_length, hQc] at this
        simp at this
        omega
      have hj : j < nKey2 := by
        have := congrArg List.length hB
        rw [bytesFrom_length, hQc] at this
        simp at this
        omega
      have e := loopBody_eq_listBody nKey1 zA nKey2 zB i j hi hj
      rw [hA, hB] at e
      -- the number of bytes the pass takes on both sides
      obtain ⟨d, hd1, hd2, hstep⟩ : ∃ d, 1 ≤ d ∧ d ≤ Q.length ∧
          listBody (Q ++ ra) (Q ++ rb) = Step.next d d := by
        by_cases hc : isdigit c = true
        · have hh : headDigit Q = true := by rw [hQc]; simpa [headDigit] using hc
          refine ⟨digitsLen Q, ?_, (digitsLen_le Q), listBody_same_run Q ra rb hh hQ⟩
          rw [hQc]
          simp [digitsLen, hc]
        · refine ⟨1, le_refl 1, ?_, ?_⟩
          · rw [hQc]; simp
          · rw [hQc]
            exact listBody_same_byte c _ _ hc
      rw [hstep] at e
      rw [natSortLoop_step nKey1 zA nKey2 zB i j _ _ ⟨hi, hj⟩ e, ← hQc]
      by_cases hfull : d = Q.length
      · rw [hfull]
      · have hlt : d < Q.length := by omega
        have hlen : (Q.drop d).length = Q.length - d := List.length_drop _ _
        have key := ih (Q.length - d) (by omega) (Q.drop d) (i + d) (j + d)
          (by rw [endsInDigit_drop Q d hlt]; exact hQ)
          (by rw [← bytesFrom_drop, hA, List.drop_append_of_le_length hd2])
          (by rw [← bytesFrom_drop, hB, List.drop_append_of_le_length hd2])
          hlen
        rw [key, hlen]
        congr 1 <;> omega

theorem bytesFrom_mem_append (P X : List Nat) (past : Nat → Nat) :
    bytesFrom (mem (P ++ X) past) (P ++ X).length P.length = X := by
  have h := bytesFrom_drop (mem (P ++ X) past) (P ++ X).length P.length 0
  rw [bytesFrom_mem, Nat.zero_add, List.drop_left] at h
  exact h.symm

theorem mem_append_cons (P S : List Nat) (c : Nat) (past : Nat → Nat) :
    mem (P ++ c :: S) past P.length = c := by
  have h := headD_bytesFrom (mem (P ++ c :: S) past) (P ++ c :: S).length P.length
    (by simp)
  rw [bytesFrom_mem_append] at h
  exact h.symm

/-- On two keys with a common prefix `P` that does not end in a digit the scan
brings both cursors to the end of `P`. -/
theorem natSortCollFunc_shared (P X Y : List Nat) (pastA pastB : Nat → Nat)
    (hP : endsInDigit P = false) :
    natSortCollFunc (P ++ X).length (mem (P ++ X) pastA) (P ++ Y).length (mem (P ++ Y) pastB) =
      natSortLoop (P ++ X).length (mem (P ++ X) pastA) (P ++ Y).length (mem (P ++ Y) pastB)
        P.length P.length := by
  have h := natSortLoop_shared (P ++ X).length (mem (P ++ X) pastA) (P ++ Y).length
    (mem (P ++ Y) pastB) P X Y 0 0 hP (bytesFrom_mem _ _) (bytesFrom_mem _ _)
  rw [Nat.zero_add] at h
  exact h

theorem commonRun_digits (zA : Nat → Nat) (nKey1 : Nat) (zB : Nat → Nat) (nKey2 : Nat)
    (i j k : Nat)
    (h0 : ∀ m, m < k → isdigit (zA (i + m)) = true ∧ isdigit (zB (j + m)) = true) :
    ∀ m, m < commonRun zA nKey1 zB nKey2 i j k →
      isdigit (zA (i + m)) = true ∧ isdigit (zB (j + m)) = true := by
  induction k using commonRun.induct zA nKey1 zB nKey2 i j with
  | case1 k h ih =>
    rw [commonRun, if_pos h]
    apply ih
    intro m hm
    by_cases hk : m < k
    · exact h0 m hk
    · have : m = k := by omega
      subst this
      exact ⟨h.2.1, h.2.2.2⟩
  | case2 k h =>
    rw [commonRun, if_neg h]
    exact h0

theorem memcmp_eq_zero_iff (zA zB : Nat → Nat) (k i j : Nat) :
    memcmp zA i zB j k = 0 ↔ ∀ m, m < k → zA (i + m) = zB (j + m) := by
  induction k generalizing i j with
  | zero => simp [memcmp]
  | succ k ih =>
    simp only [memcmp]
    by_cases h : zA i = zB j
    · simp only [ne_eq, h, not_true_eq_false, if_false]
      rw [ih (i + 1) (j + 1)]
      constructor
      · intro hall m hm
        cases m with
        | zero => simpa using h
        | succ m =>
          have := hall m (by omega)
          rw [Nat.add_assoc, Nat.add_assoc, Nat.add_comm 1 m] at this
          exact this
      · intro hall m hm
        have := hall (m + 1) (by omega)
        rw [Nat.add_assoc, Nat.add_assoc, Nat.add_comm 1 m]
        exact this
    · simp only [ne_eq, h, not_false_eq_true, if_true]
      constructor
      · intro h0
        omega
      · intro hall
        exact absurd (by simpa using hall 0 (by omega)) h

theorem LoopHead_le (nKey1 : Nat) (zA : Nat → Nat) (nKey2 : Nat) (zB : Nat → Nat)
    (i j : Nat) (h : LoopHead nKey1 zA nKey2 zB i j) : i ≤ nKey1 ∧ j ≤ nKey2 := by
  induction h with
  | start => exact ⟨Nat.zero_le _, Nat.zero_le _⟩
  | pass i j i2 j2 _ hi hj hb _ =>
    have := loopBody_next nKey1 zA nKey2 zB i j i2 j2 hi hj hb
    exact ⟨this.2.2.2.1, this.2.2.2.2⟩

theorem LoopHead_value (nKey1 : Nat) (zA : Nat → Nat) (nKey2 : Nat) (zB : Nat → Nat)
    (i j : Nat) (h : LoopHead nKey1 zA nKey2 zB i j) :
    natSortCollFunc nKey1 zA nKey2 zB = natSortLoop nKey1 zA nKey2 zB i j := by
  induction h with
  | start => rfl
  | pass i j i2 j2 _ hi hj hb ih =>
    rw [ih, natSortLoop_step nKey1 zA nKey2 zB i j i2 j2 ⟨hi, hj⟩ hb]

theorem normAux_some (r a : List Nat) :
    normAux (some r) a =
      normRun (r ++ a.take (digitsLen a)) ++ norm (a.drop (digitsLen a)) := by
  induction a generalizing r with
  | nil => simp [normAux, digitsLen, norm]
  | cons c cs ih =>
    by_cases hc : isdigit c = true
    · rw [normAux, if_pos hc, ih]
      simp only [digitsLen, if_pos hc, List.take_succ_cons, List.drop_succ_cons,
        List.append_assoc, List.singleton_append]
    · rw [normAux, if_neg hc]
      simp only [digitsLen, if_neg hc, List.take_zero, List.append_nil, List.drop_zero, norm,
        normAux]

theorem norm_nil : norm [] = [] := rfl

theorem norm_cons_byte (c : Nat) (cs : List Nat) (h : ¬ isdigit c = true) :
    norm (c :: cs) = c :: norm cs := by
  simp [norm, normAux, h]

theorem norm_of_headDigit (a : List Nat) (h : headDigit a = true) :
    norm a = normRun (a.take (digitsLen a)) ++ norm (a.drop (digitsLen a)) := by
  cases a with
  | nil => simp [headDigit] at h
  | cons c cs =>
    simp only [headDigit] at h
    rw [norm, normAux, if_pos h, normAux_some]
    simp only [digitsLen, if_pos h, List.take_succ_cons, List.drop_succ_cons,
      List.singleton_append]

theorem digitsLen_take (a : List Nat) : digitsLen (a.take (digitsLen a)) = digitsLen a := by
  induction a with
  | nil => rfl
  | cons c cs ih =>
    by_cases hc : isdigit c = true
    · simp only [digitsLen, if_pos hc, List.take_succ_cons, ih]
    · simp [digitsLen, hc]

theorem length_take_digitsLen (a : List Nat) : (a.take (digitsLen a)).length = digitsLen a := by
  rw [List.length_take]
  have := digitsLen_le a
  omega

theorem runVal_take (a : List Nat) : runVal (a.take (digitsLen a)) = runVal a := by
  induction a with
  | nil => rfl
  | cons c cs ih =>
    by_cases hc : isdigit c = true
    · simp only [digitsLen, if_pos hc, List.take_succ_cons, runVal, ih, digitsLen_take]
    · simp [digitsLen, runVal, hc]

/-- Digit strings without a leading zero that denote the same number are the
same string. -/
theorem stripped_eq_of_runVal_eq (s t : List Nat)
    (hs : digitsLen s = s.length) (ht : digitsLen t = t.length)
    (hs0 : ∀ c cs, s = c :: cs → c ≠ 48) (ht0 : ∀ c cs, t = c :: cs → c ≠ 48)
    (h : runVal s = runVal t) : s = t := by
  have hlen : digitsLen s = digitsLen t := by
    rcases Nat.lt_trichotomy (digitsLen s) (digitsLen t) with h1 | h1 | h1
    · have := runVal_lt_of_digitsLen_lt t s ht0 h1
      omega
    · exact h1
    · have := runVal_lt_of_digitsLen_lt s t hs0 h1
      omega
  have hc := cmpBytes_digits (digitsLen s) s t rfl hlen.symm
  rw [h, sub_self, Int.sign_zero] at hc
  have hz := Int.sign_eq_zero_iff_zero.1 hc
  have ht' := cmpBytes_eq_zero (digitsLen s) s t (by omega) (by omega) hz
  rw [hs, List.take_length] at ht'
  rw [ht', List.take_of_length_le (by omega)]

theorem digitsLen_drop_of_all (D : List Nat) (m : Nat) (hD : digitsLen D = D.length) :
    digitsLen (D.drop m) = (D.drop m).length := by
  induction D generalizing m with
  | nil => simp [digitsLen]
  | cons c cs ih =>
    by_cases hc : isdigit c = true
    · simp only [digitsLen, if_pos hc, List.length_cons, Nat.add_right_cancel_iff] at hD
      cases m with
      | zero => simp [digitsLen, hc, hD]
      | succ m => rw [List.drop_succ_cons]; exact ih m hD
    · simp only [digitsLen, if_neg hc, List.length_cons] at hD
      omega

theorem normRun_eq_of_runVal_eq (D1 D2 : List Nat) (h1 : digitsLen D1 = D1.length)
    (h2 : digitsLen D2 = D2.length) (h : runVal D1 = runVal D2) :
    normRun D1 = normRun D2 := by
  have e : D1.drop (zerosLen D1) = D2.drop (zerosLen D2) := by
    apply stripped_eq_of_runVal_eq
    · exact digitsLen_drop_of_all D1 _ h1
    · exact digitsLen_drop_of_all D2 _ h2
    · exact fun c cs hc => head_dropZeros D1 c cs hc
    · exact fun c cs hc => head_dropZeros D2 c cs hc
    · rw [runVal_dropZeros, runVal_dropZeros, h]
  unfold normRun
  rw [e]

/-- Buffers with the same tokens have the same normal form. -/
theorem norm_eq_of_key_eq (A B : List Nat) (h : key A = key B) : norm A = norm B := by
  obtain ⟨m, hm⟩ : ∃ m, A.length = m := ⟨_, rfl⟩
  induction m using Nat.strong_induction_on generalizing A B with
  | _ m ih =>
    cases hA : A with
    | nil =>
      rw [hA, key_nil] at h
      rw [key_eq_nil B h.symm]
    | cons c cs =>
      by_cases hc : isdigit c = true
      · have hhA : headDigit A = true := by rw [hA]; simpa [headDigit] using hc
        rw [key_of_headDigit A hhA] at h
        have hhB : headDigit B = true := by
          cases hB : B with
          | nil => rw [hB, key_nil] at h; cases h
          | cons d ds =>
            by_cases hd : isdigit d = true
            · simpa [headDigit] using hd
            · rw [hB, key_cons_byte d ds hd] at h
              cases h
        rw [key_of_headDigit B hhB] at h
        have hv : runVal A = runVal B := by
          have := (List.cons.inj h).1
          exact Tok.num.inj this
        have hk := (List.cons.inj h).2
        have hpos : 1 ≤ digitsLen A := by rw [hA]; simp [digitsLen, hc]
        have hrec := ih (A.drop (digitsLen A)).length (by
          rw [List.length_drop]
          have := digitsLen_le A
          omega) (A.drop (digitsLen A)) (B.drop (digitsLen B)) hk rfl
        rw [← hA, norm_of_headDigit A hhA, norm_of_headDigit B hhB, hrec,
          normRun_eq_of_runVal_eq (A.take (digitsLen A)) (B.take (digitsLen B))
            (by rw [digitsLen_take, length_take_digitsLen])
            (by rw [digitsLen_take, length_take_digitsLen])
            (by rw [runVal_take, runVal_take, hv])]
      · rw [hA, key_cons_byte c cs hc] at h
        cases hB : B with
        | nil => rw [hB, key_nil] at h; cases h
        | cons d ds =>
          by_cases hd : isdigit d = true
          · have hhB : headDigit (d :: ds) = true := by simpa [headDigit] using hd
            rw [hB, key_of_headDigit _ hhB] at h
            cases h
          · rw [hB, key_cons_byte d ds hd] at h
            have hcd : c = d := Tok.byte.inj (List.cons.inj h).1
            have hk := (List.cons.inj h).2
            have hrec := ih cs.length (by rw [← hm, hA]; simp) cs ds hk rfl
            rw [norm_cons_byte c cs hc, norm_cons_byte d ds hd, hrec, hcd]

theorem all_digits_of_digitsLen (D : List Nat) (h : digitsLen D = D.length) :
    ∀ c ∈ D, isdigit c = true := by
  induction D with
  | nil => simp
  | cons c cs ih =>
    by_cases hc : isdigit c = true
    · simp only [digitsLen, if_pos hc, List.length_cons, Nat.add_right_cancel_iff] at h
      intro x hx
      rcases List.mem_cons.1 hx with rfl | hx
      · exact hc
      · exact ih h x hx
    · simp only [digitsLen, if_neg hc, List.length_cons] at h
      omega

theorem normRun_ne_nil (D : List Nat) : normRun D ≠ [] := by
  unfold normRun
  split_ifs with h
  · simp
  · exact h

theorem normRun_digits (D : List Nat) (hD : digitsLen D = D.length) :
    ∀ c ∈ normRun D, isdigit c = true := by
  unfold normRun
  split_ifs with h
  · intro c hc
    rw [List.mem_singleton.1 hc]
    exact isdigit_48
  · intro c hc
    exact all_digits_of_digitsLen D hD c (List.mem_of_mem_drop hc)

theorem runVal_normRun (D : List Nat) : runVal (normRun D) = runVal D := by
  unfold normRun
  split_ifs with h
  · rw [← runVal_dropZeros D, h]
    decide
  · exact runVal_dropZeros D

theorem runVal_eq_decVal (N : List Nat) (hN : ∀ c ∈ N, isdigit c = true) :
    runVal N = decVal N := by
  have h := runVal_append N [] hN 0
  simpa [digitsLen, runVal, decVal] using h

theorem headDigit_norm_of_not (R : List Nat) (h : headDigit R = false) :
    headDigit (norm R) = false := by
  cases R with
  | nil => rfl
  | cons c cs =>
    have hc : ¬ isdigit c = true := by simpa [headDigit] using h
    rw [norm_cons_byte c cs hc]
    simpa [headDigit] using hc

theorem headDigit_drop_digitsLen (A : List Nat) : headDigit (A.drop (digitsLen A)) = false := by
  have h := headDigit_drop A (digitsLen A) (le_refl _)
  cases hb : headDigit (A.drop (digitsLen A)) with
  | false => rfl
  | true => exact absurd (h.1 hb) (by omega)

/-- The normal form of a buffer has the tokens of the buffer. -/
theorem key_norm (A : List Nat) : key (norm A) = key A := by
  obtain ⟨m, hm⟩ : ∃ m, A.length = m := ⟨_, rfl⟩
  induction m using Nat.strong_induction_on generalizing A with
  | _ m ih =>
    cases hA : A with
    | nil => rfl
    | cons c cs =>
      by_cases hc : isdigit c = true
      · have hhA : headDigit A = true := by rw [hA]; simpa [headDigit] using hc
        have hpos : 1 ≤ digitsLen A := by rw [hA]; simp [digitsLen, hc]
        have hall : digitsLen (A.take (digitsLen A)) = (A.take (digitsLen A)).length := by
          rw [digitsLen_take, length_take_digitsLen]
        have hrec := ih (A.drop (digitsLen A)).length (by
          rw [List.length_drop]
          have := digitsLen_le A
          omega) (A.drop (digitsLen A)) rfl
        rw [← hA, norm_of_headDigit A hhA,
          key_digits_append _ _ (normRun_digits _ hall) (normRun_ne_nil _)
            (headDigit_norm_of_not _ (headDigit_drop_digitsLen A)),
          ← runVal_eq_decVal _ (normRun_digits _ hall), runVal_normRun, runVal_take, hrec,
          key_of_headDigit A hhA]
      · have hrec := ih cs.length (by rw [← hm, hA]; simp) cs rfl
        rw [norm_cons_byte c cs hc, key_cons_byte c cs hc,
          key_cons_byte c _ hc, hrec]

theorem key_eq_iff_norm_eq (A B : List Nat) : key A = key B ↔ norm A = norm B := by
  constructor
  · exact norm_eq_of_key_eq A B
  · intro h
    rw [← key_norm A, ← key_norm B, h]

/-! ## The claims -/

/-- C1. Digit runs are ordered by numeric value: behind a common prefix `P`
that does not end in a digit, a non-empty digit string `D1` of smaller value
than the non-empty digit string `D2` (leading zeros allowed), each followed by
anything that does not begin with a digit, makes the result negative, and one
of larger value makes it positive. -/
theorem C1_digit_runs_numeric (P D1 D2 S1 S2 : List Nat) (pastA pastB : Nat → Nat)
    (hP : endsInDigit P = false)
    (hD1 : ∀ c ∈ D1, isdigit c = true) (hD2 : ∀ c ∈ D2, isdigit c = true)
    (hne1 : D1 ≠ []) (hne2 : D2 ≠ [])
    (hS1 : headDigit S1 = false) (hS2 : headDigit S2 = false) :
    (decVal D1 < decVal D2 →
      natSortCollFunc (P ++ D1 ++ S1).length (mem (P ++ D1 ++ S1) pastA)
        (P ++ D2 ++ S2).length (mem (P ++ D2 ++ S2) pastB) < 0) ∧
    (decVal D2 < decVal D1 →
      0 < natSortCollFunc (P ++ D1 ++ S1).length (mem (P ++ D1 ++ S1) pastA)
        (P ++ D2 ++ S2).length (mem (P ++ D2 ++ S2) pastB)) := by
  have hs := natSortCollFunc_mem_sign (P ++ D1 ++ S1) (P ++ D2 ++ S2) pastA pastB
  rw [List.append_assoc, List.append_assoc, key_append P _ hP, key_append P _ hP,
    keyCmp_append_left, key_digits_append D1 S1 hD1 hne1 hS1,
    key_digits_append D2 S2 hD2 hne2 hS2, keyCmp_num_num] at hs
  rw [List.append_assoc, List.append_assoc]
  constructor
  · intro h
    rw [if_pos h] at hs
    exact (neg_iff_sign _).2 hs
  · intro h
    rw [if_neg (by omega), if_pos h] at hs
    exact (pos_iff_sign _).2 hs

/-- Witness of C1: "file2" against "file10". -/
theorem C1_digit_runs_numeric_witness :
    decVal [50] < decVal [49, 48] ∧
      natSortCollFunc ([102, 105, 108, 101] ++ [50] ++ []).length
        (mem ([102, 105, 108, 101] ++ [50] ++ []) (fun _ => 0))
        ([102, 105, 108, 101] ++ [49, 48] ++ []).length
        (mem ([102, 105, 108, 101] ++ [49, 48] ++ []) (fun _ => 0)) < 0 :=
  ⟨by decide,
    (C1_digit_runs_numeric [102, 105, 108, 101] [50] [49, 48] [] [] (fun _ => 0) (fun _ => 0)
      (by decide) (by decide) (by decide) (by decide) (by decide) (by decide)
      (by decide)).1 (by decide)⟩

/-- C2. Antisymmetry: for all byte buffers X and Y the sign of
`natSortCollFunc(X, Y)` is the opposite of the sign of `natSortCollFunc(Y, X)`,
and one is zero exactly when the other is. -/
theorem C2_antisymmetry (nKey1 : Nat) (zA : Nat → Nat) (nKey2 : Nat) (zB : Nat → Nat) :
    Int.sign (natSortCollFunc nKey1 zA nKey2 zB) =
        - Int.sign (natSortCollFunc nKey2 zB nKey1 zA) ∧
      (natSortCollFunc nKey1 zA nKey2 zB = 0 ↔ natSortCollFunc nKey2 zB nKey1 zA = 0) := by
  have h : Int.sign (natSortCollFunc nKey1 zA nKey2 zB) =
      - Int.sign (natSortCollFunc nKey2 zB nKey1 zA) := by
    rw [natSortCollFunc_sign, natSortCollFunc_sign]
    exact keyCmp_antisymm _ _
  refine ⟨h, ?_⟩
  have e1 := zero_iff_sign (natSortCollFunc nKey1 zA nKey2 zB)
  have e2 := zero_iff_sign (natSortCollFunc nKey2 zB nKey1 zA)
  rw [e1, e2, h]
  omega

/-- C3. Transitivity: for all byte buffers X, Y, Z, if `natSortCollFunc(X, Y) ≤ 0`
and `natSortCollFunc(Y, Z) ≤ 0` then `natSortCollFunc(X, Z) ≤ 0`, and if moreover
one of the two is negative then `natSortCollFunc(X, Z) < 0`. -/
theorem C3_transitivity (nX : Nat) (zX : Nat → Nat) (nY : Nat) (zY : Nat → Nat)
    (nZ : Nat) (zZ : Nat → Nat)
    (h1 : natSortCollFunc nX zX nY zY ≤ 0) (h2 : natSortCollFunc nY zY nZ zZ ≤ 0) :
    natSortCollFunc nX zX nZ zZ ≤ 0 ∧
      (natSortCollFunc nX zX nY zY < 0 ∨ natSortCollFunc nY zY nZ zZ < 0 →
        natSortCollFunc nX zX nZ zZ < 0) := by
  have a1 := (nonpos_iff_sign _).1 h1
  have a2 := (nonpos_iff_sign _).1 h2
  rw [natSortCollFunc_sign] at a1 a2
  have hk := keyCmp_trans _ _ _ a1 a2
  refine ⟨(nonpos_iff_sign _).2 ?_, fun h => (neg_iff_sign_neg _).2 ?_⟩
  · rw [natSortCollFunc_sign]
    exact hk.1
  · rw [natSortCollFunc_sign]
    apply hk.2
    rcases h with h | h
    · have b := (neg_iff_sign_neg _).1 h
      rw [natSortCollFunc_sign] at b
      exact Or.inl b
    · have b := (neg_iff_sign_neg _).1 h
      rw [natSortCollFunc_sign] at b
      exact Or.inr b

/-- Witness of C3 on the keys "a", "b", "c". -/
theorem C3_transitivity_witness :
    natSortCollFunc 1 (mem [97] (fun _ => 0)) 1 (mem [99] (fun _ => 0)) ≤ 0 ∧
      (natSortCollFunc 1 (mem [97] (fun _ => 0)) 1 (mem [98] (fun _ => 0)) < 0 ∨
          natSortCollFunc 1 (mem [98] (fun _ => 0)) 1 (mem [99] (fun _ => 0)) < 0 →
        natSortCollFunc 1 (mem [97] (fun _ => 0)) 1 (mem [99] (fun _ => 0)) < 0) :=
  C3_transitivity 1 (mem [97] (fun _ => 0)) 1 (mem [98] (fun _ => 0)) 1
    (mem [99] (fun _ => 0))
    ((nonpos_iff_sign _).2 (by
      rw [show Int.sign (natSortCollFunc 1 (mem [97] (fun _ => 0)) 1 (mem [98] (fun _ => 0))) =
        keyCmp (key [97]) (key [98]) from natSortCollFunc_mem_sign [97] [98] _ _]
      decide))
    ((nonpos_iff_sign _).2 (by
      rw [show Int.sign (natSortCollFunc 1 (mem [98] (fun _ => 0)) 1 (mem [99] (fun _ => 0))) =
        keyCmp (key [98]) (key [99]) from natSortCollFunc_mem_sign [98] [99] _ _]
      decide))

/-- C4. Leading-zero insensitivity: behind a prefix `P` that does not end in a
digit, putting any number `m` of `'0'` bytes (in particular `m ≥ 1`) in front
of an `R` that begins with a digit gives a buffer that compares equal to
`P ++ R`. -/
theorem C4_leading_zeros (P R : List Nat) (m : Nat) (pastA pastB : Nat → Nat)
    (hP : endsInDigit P = false) (hR : headDigit R = true) :
    natSortCollFunc (P ++ List.replicate m 48 ++ R).length
        (mem (P ++ List.replicate m 48 ++ R) pastA)
        (P ++ R).length (mem (P ++ R) pastB) = 0 := by
  rw [zero_iff_sign, natSortCollFunc_mem_sign, List.append_assoc, key_append P _ hP,
    key_append P _ hP, key_zeros_append m R hR]
  exact keyCmp_self _

/-- Witness of C4: "a00b" against "a0b", with `P = "a"`, `m = 1` and
`R = "0b"`. -/
theorem C4_leading_zeros_witness :
    endsInDigit [97] = false ∧ headDigit [48, 98] = true ∧
      natSortCollFunc ([97] ++ List.replicate 1 48 ++ [48, 98]).length
        (mem ([97] ++ List.replicate 1 48 ++ [48, 98]) (fun _ => 0))
        ([97] ++ [48, 98]).length (mem ([97] ++ [48, 98]) (fun _ => 0)) = 0 :=
  ⟨by decide, by decide,
    C4_leading_zeros [97] [48, 98] 1 (fun _ => 0) (fun _ => 0) (by decide) (by decide)⟩

/-- C5. Pure lexical fallback: on two buffers neither of which holds a digit
byte the sign of the result is the plain lexicographic comparison of the two
byte sequences (`lexCmp`, valued -1, 0 or 1), whatever the bytes are, zero
bytes and bytes from 0x80 up included. -/
theorem C5_lexical_fallback (A B : List Nat) (pastA pastB : Nat → Nat)
    (hA : ∀ c ∈ A, isdigit c = false) (hB : ∀ c ∈ B, isdigit c = false) :
    Int.sign (natSortCollFunc A.length (mem A pastA) B.length (mem B pastB)) =
      lexCmp A B := by
  rw [natSortCollFunc_mem_sign, key_no_digit A hA, key_no_digit B hB, keyCmp_map_byte]

/-- Witness of C5: the bytes 0, 200, 'a' against 0, 200, 'b'. -/
theorem C5_lexical_fallback_witness :
    (∀ c ∈ [0, 200, 97], isdigit c = false) ∧ (∀ c ∈ [0, 200, 98], isdigit c = false) ∧
      Int.sign (natSortCollFunc [0, 200, 97].length (mem [0, 200, 97] (fun _ => 0))
        [0, 200, 98].length (mem [0, 200, 98] (fun _ => 0))) = lexCmp [0, 200, 97] [0, 200, 98] :=
  ⟨by decide, by decide,
    C5_lexical_fallback [0, 200, 97] [0, 200, 98] (fun _ => 0) (fun _ => 0)
      (by decide) (by decide)⟩

/-- Counterexample to C6 as stated: "0" is a proper prefix of "00", and the
result is 0, not negative. -/
theorem C6_prefix_counterexample :
    ¬ (natSortCollFunc [48].length (mem [48] (fun _ => 0))
        ([48] ++ [48]).length (mem ([48] ++ [48]) (fun _ => 0)) < 0) := by
  have h : natSortCollFunc [48].length (mem [48] (fun _ => 0))
      ([48] ++ [48]).length (mem ([48] ++ [48]) (fun _ => 0)) = 0 := by
    rw [zero_iff_sign, natSortCollFunc_mem_sign]
    decide
  rw [h]
  decide

/-- C6, amended. Prefix rule: a buffer `A` never orders after a buffer
`A ++ T` it is a proper prefix of, and it orders strictly before it except when
`A` ends in a digit run made of `'0'` bytes only and `T` is made of `'0'` bytes
only, in which case the two compare equal. -/
theorem C6_prefix_amended (A T : List Nat) (pastA pastB : Nat → Nat) (hT : T ≠ []) :
    natSortCollFunc A.length (mem A pastA) (A ++ T).length (mem (A ++ T) pastB) ≤ 0 ∧
      (natSortCollFunc A.length (mem A pastA) (A ++ T).length (mem (A ++ T) pastB) = 0 ↔
        ∃ P m n, endsInDigit P = false ∧ 1 ≤ m ∧
          A = P ++ List.replicate m 48 ∧ T = List.replicate n 48) := by
  have hs := natSortCollFunc_mem_sign A (A ++ T) pastA pastB
  obtain ⟨P, R, hA, hP, hR⟩ := exists_prefix_run A
  have hk : keyCmp (key A) (key (A ++ T)) = keyCmp (key R) (key (R ++ T)) := by
    rw [hA, List.append_assoc, key_append P _ hP, key_append P _ hP, keyCmp_append_left]
  have hext := keyCmp_run_extend R T hR hT
  rw [← hk, ← hs] at hext
  refine ⟨(nonpos_iff_sign _).2 hext.1, fun h0 => ?_, fun hex => ?_⟩
  · obtain ⟨hne, hRz, hTz⟩ := hext.2 ((zero_iff_sign _).1 h0)
    refine ⟨P, R.length, T.length, hP, ?_, ?_, hTz⟩
    · exact List.length_pos.2 hne
    · rw [← hRz]
      exact hA
  · obtain ⟨P2, m, n, hP2, hm, hA2, hT2⟩ := hex
    obtain ⟨m, rfl⟩ : ∃ m', m = m' + 1 := ⟨m - 1, by omega⟩
    rw [zero_iff_sign, hs, hA2, hT2, List.append_assoc, key_append P2 _ hP2,
      key_append P2 _ hP2, keyCmp_append_left, ← List.replicate_add,
      show m + 1 + n = (m + n) + 1 by omega, key_zeros, key_zeros]
    rfl

/-- Witness of C6, amended: "file" against "file1". -/
theorem C6_prefix_amended_witness :
    [49] ≠ [] ∧
      natSortCollFunc [102, 105, 108, 101].length (mem [102, 105, 108, 101] (fun _ => 0))
        ([102, 105, 108, 101] ++ [49]).length
        (mem ([102, 105, 108, 101] ++ [49]) (fun _ => 0)) ≤ 0 :=
  ⟨by decide,
    (C6_prefix_amended [102, 105, 108, 101] [49] (fun _ => 0) (fun _ => 0) (by decide)).1⟩

/-- C7. Reflexivity: every byte buffer compares equal to itself, whatever its
length and bytes and wherever its two copies lie in memory. -/
theorem C7_reflexivity (X : List Nat) (pastA pastB : Nat → Nat) :
    natSortCollFunc X.length (mem X pastA) X.length (mem X pastB) = 0 := by
  rw [zero_iff_sign, natSortCollFunc_mem_sign]
  exact keyCmp_self _

/-- C8. Empty buffers: against an empty buffer the loop is not entered and the
result is the difference of the lengths, so two empty buffers compare equal, the
empty buffer is below every non-empty one and every non-empty one is above it.
`zE` is the memory at the pointer of the empty buffer, `zB` and `n` are the
other buffer. -/
theorem C8_empty (zE zB : Nat → Nat) (n : Nat) :
    natSortCollFunc 0 zE 0 zB = 0 ∧
      natSortCollFunc 0 zE n zB = - (n : Int) ∧
      natSortCollFunc n zB 0 zE = (n : Int) ∧
      (0 < n → natSortCollFunc 0 zE n zB < 0 ∧ 0 < natSortCollFunc n zB 0 zE) := by
  have e1 : natSortCollFunc 0 zE n zB = - (n : Int) := by
    rw [natSortCollFunc, natSortLoop_exit 0 zE n zB 0 0 (by omega)]
    push_cast
    ring
  have e2 : natSortCollFunc n zB 0 zE = (n : Int) := by
    rw [natSortCollFunc, natSortLoop_exit n zB 0 zE 0 0 (by omega)]
    push_cast
    ring
  have e3 : natSortCollFunc 0 zE 0 zB = 0 := by
    rw [natSortCollFunc, natSortLoop_exit 0 zE 0 zB 0 0 (by omega)]
    rfl
  refine ⟨e3, e1, e2, fun hn => ?_⟩
  rw [e1, e2]
  omega

/-- Witness of C8: the empty buffer against the one-byte buffer "a". -/
theorem C8_empty_witness :
    0 < 1 ∧ natSortCollFunc 0 (mem [] (fun _ => 0)) 1 (mem [97] (fun _ => 0)) < 0 ∧
      0 < natSortCollFunc 1 (mem [97] (fun _ => 0)) 0 (mem [] (fun _ => 0)) :=
  ⟨by decide, (C8_empty (mem [] (fun _ => 0)) (mem [97] (fun _ => 0)) 1).2.2.2 (by decide)⟩

/-- C9, the defect. On the keys "0" and "0" (both of length 1) the outer loop
is entered, the first pass takes the both-digits branch, and the loop of
line 39 evaluates its condition twice: it reads `zA[0]` and then `zA[1]`, the
byte one past the end of the key, before it leaves with the cursor at 1 (the
loop of line 40 does the same on `zB`).  The pass then ends with both cursors
at 1, whatever the bytes past the end are. -/
theorem C9_read_past_end (pastA pastB : Nat → Nat) :
    (0 < 1 ∧ 0 < 1) ∧
      isdigit (mem [48] pastA 0) = true ∧ isdigit (mem [48] pastB 0) = true ∧
      skipZerosReads (mem [48] pastA) 1 0 = [0, 1] ∧
      skipZerosReads (mem [48] pastB) 1 0 = [0, 1] ∧
      loopBody 1 (mem [48] pastA) 1 (mem [48] pastB) 0 0 = Step.next 1 1 := by
  have eA : mem [48] pastA 0 = 48 := rfl
  have eB : mem [48] pastB 0 = 48 := rfl
  have sA : skipZeros (mem [48] pastA) 1 0 = 1 := by
    rw [skipZeros, if_pos ⟨eA, by decide⟩, skipZeros, if_neg (by omega)]
  have sB : skipZeros (mem [48] pastB) 1 0 = 1 := by
    rw [skipZeros, if_pos ⟨eB, by decide⟩, skipZeros, if_neg (by omega)]
  have hk : commonRun (mem [48] pastA) 1 (mem [48] pastB) 1 1 1 0 = 0 := by
    rw [commonRun, if_neg (by omega)]
  refine ⟨by decide, by rw [eA]; decide, by rw [eB]; decide, ?_, ?_, ?_⟩
  · rw [skipZerosReads, if_pos ⟨eA, by decide⟩, skipZerosReads, if_neg (by omega)]
  · rw [skipZerosReads, if_pos ⟨eB, by decide⟩, skipZerosReads, if_neg (by omega)]
  · unfold loopBody
    simp only [sA, sB, hk, eA, eB, memcmp]
    simp [isdigit]

/-- C10. Totality and termination: the function returns a value on all
buffers; a pass through the body of the outer loop that does not return
strictly increases `i + j` and keeps the cursors within the lengths (in the
both-digits branch a `'0'` is skipped or the common run length is at least 1),
and the outer loop reaches its return within `nKey1 + nKey2` passes. -/
theorem C10_termination (nKey1 : Nat) (zA : Nat → Nat) (nKey2 : Nat) (zB : Nat → Nat) :
    natSortFuel nKey1 zA nKey2 zB (nKey1 + nKey2) 0 0 =
        some (natSortCollFunc nKey1 zA nKey2 zB) ∧
      (∀ i j i2 j2, i < nKey1 → j < nKey2 →
        loopBody nKey1 zA nKey2 zB i j = Step.next i2 j2 →
        i + j < i2 + j2 ∧ i2 ≤ nKey1 ∧ j2 ≤ nKey2) ∧
      (∀ i j, i < nKey1 → j < nKey2 → isdigit (zA i) = true → isdigit (zB j) = true →
        i < skipZeros zA nKey1 i ∨ j < skipZeros zB nKey2 j ∨
          1 ≤ commonRun zA nKey1 zB nKey2 (skipZeros zA nKey1 i) (skipZeros zB nKey2 j) 0) := by
  refine ⟨?_, fun i j i2 j2 hi hj hb => ?_, fun i j hi hj h1 h2 => ?_⟩
  · exact natSortFuel_eq nKey1 zA nKey2 zB (nKey1 + nKey2) 0 0 (Nat.zero_le _)
      (Nat.zero_le _) (by omega)
  · have h := loopBody_next nKey1 zA nKey2 zB i j i2 j2 hi hj hb
    exact ⟨h.2.2.1, h.2.2.2.1, h.2.2.2.2⟩
  · exact digit_progress nKey1 zA nKey2 zB i j hi hj h1 h2

/-- Witness of C10 on the keys "a1" and "a1": the first pass, at the byte
`'a'`, moves both cursors to 1, and the second starts at the digit `'1'`. -/
theorem C10_termination_witness :
    (loopBody 2 (mem [97, 49] (fun _ => 0)) 2 (mem [97, 49] (fun _ => 0)) 0 0 = Step.next 1 1 ∧
      (0 + 0 < 1 + 1 ∧ 1 ≤ 2 ∧ 1 ≤ 2)) ∧
    (isdigit (mem [97, 49] (fun _ => 0) 1) = true ∧
      (1 < skipZeros (mem [97, 49] (fun _ => 0)) 2 1 ∨
        1 < skipZeros (mem [97, 49] (fun _ => 0)) 2 1 ∨
        1 ≤ commonRun (mem [97, 49] (fun _ => 0)) 2 (mem [97, 49] (fun _ => 0)) 2
          (skipZeros (mem [97, 49] (fun _ => 0)) 2 1)
          (skipZeros (mem [97, 49] (fun _ => 0)) 2 1) 0)) :=
  ⟨⟨loopBody_byte_eq 2 _ 2 _ 0 0 (by decide) (by decide),
      (C10_termination 2 (mem [97, 49] (fun _ => 0)) 2 (mem [97, 49] (fun _ => 0))).2.1
        0 0 1 1 (by decide) (by decide)
        (loopBody_byte_eq 2 _ 2 _ 0 0 (by decide) (by decide))⟩,
    ⟨by decide,
      (C10_termination 2 (mem [97, 49] (fun _ => 0)) 2 (mem [97, 49] (fun _ => 0))).2.2
        1 1 (by decide) (by decide) (by decide) (by decide)⟩⟩

/-- C11. Characterisation of EQUAL: two buffers compare equal exactly when
their normal forms are the same bytes, the normal form of a buffer being the
buffer with every maximal digit run stripped of its leading `'0'` bytes, an
all-zero run becoming a single `'0'`. -/
theorem C11_equal_iff_norm (A B : List Nat) (pastA pastB : Nat → Nat) :
    natSortCollFunc A.length (mem A pastA) B.length (mem B pastB) = 0 ↔ norm A = norm B := by
  rw [zero_iff_sign, natSortCollFunc_mem_sign, keyCmp_eq_zero_iff, key_eq_iff_norm_eq]

/-- C12. Digit versus non-digit: behind a common prefix `P` that does not end
in a digit, a digit byte `d` in one key against a non-digit byte `c` in the
other makes the function return the difference of the two byte values, `d - c`
or `c - d` after the side of the digit, and that difference is never 0. -/
theorem C12_digit_vs_byte (P S1 S2 : List Nat) (d c : Nat) (pastA pastB : Nat → Nat)
    (hP : endsInDigit P = false) (hd : isdigit d = true) (hc : isdigit c = false) :
    natSortCollFunc (P ++ [d] ++ S1).length (mem (P ++ [d] ++ S1) pastA)
        (P ++ [c] ++ S2).length (mem (P ++ [c] ++ S2) pastB) = (d : Int) - (c : Int) ∧
      natSortCollFunc (P ++ [c] ++ S1).length (mem (P ++ [c] ++ S1) pastA)
        (P ++ [d] ++ S2).length (mem (P ++ [d] ++ S2) pastB) = (c : Int) - (d : Int) ∧
      (d : Int) - (c : Int) ≠ 0 ∧ (c : Int) - (d : Int) ≠ 0 := by
  have hd' := (isdigit_iff d).1 hd
  have hc' : ¬ isdigit c = true := by rw [hc]; simp
  have hcr : ¬ (48 ≤ c ∧ c ≤ 57) := fun h => hc' ((isdigit_iff c).2 h)
  have hne : d ≠ c := by omega
  simp only [List.append_assoc, List.singleton_append]
  refine ⟨?_, ?_, by omega, by omega⟩
  · rw [natSortCollFunc_shared P (d :: S1) (c :: S2) pastA pastB hP]
    have e := loopBody_digit_byte (P ++ d :: S1).length (mem (P ++ d :: S1) pastA)
      (P ++ c :: S2).length (mem (P ++ c :: S2) pastB) P.length P.length
      (by rw [mem_append_cons]; exact hd) (by rw [mem_append_cons]; exact hc')
    rw [mem_append_cons, mem_append_cons] at e
    exact natSortLoop_ret _ _ _ _ _ _ _ ⟨by simp, by simp⟩ e
  · rw [natSortCollFunc_shared P (c :: S1) (d :: S2) pastA pastB hP]
    have e := loopBody_byte_ne (P ++ c :: S1).length (mem (P ++ c :: S1) pastA)
      (P ++ d :: S2).length (mem (P ++ d :: S2) pastB) P.length P.length
      (by rw [mem_append_cons]; exact hc')
      (by rw [mem_append_cons, mem_append_cons]; exact fun h => hne h.symm)
    rw [mem_append_cons, mem_append_cons] at e
    exact natSortLoop_ret _ _ _ _ _ _ _ ⟨by simp, by simp⟩ e

/-- Witness of C12: "a1" against "ab" and "ab" against "a1". -/
theorem C12_digit_vs_byte_witness :
    endsInDigit [97] = false ∧ isdigit 49 = true ∧ isdigit 98 = false ∧
      natSortCollFunc ([97] ++ [49] ++ []).length (mem ([97] ++ [49] ++ []) (fun _ => 0))
        ([97] ++ [98] ++ []).length (mem ([97] ++ [98] ++ []) (fun _ => 0)) =
          ((49 : Nat) : Int) - ((98 : Nat) : Int) :=
  ⟨by decide, by decide, by decide,
    (C12_digit_vs_byte [97] [] [] 49 98 (fun _ => 0) (fun _ => 0) (by decide) (by decide)
      (by decide)).1⟩

/-- Counterexample to C13 as stated: on "12" against "13" the both-digits
branch reaches the byte comparison with runs of the same length 2, the two
windows differ, and the function returns from the `memcmp`. -/
theorem C13_equal_length_counterexample :
    isdigit (mem [49, 50] (fun _ => 0) 0) = true ∧
      isdigit (mem [49, 51] (fun _ => 0) 0) = true ∧
      skipZeros (mem [49, 50] (fun _ => 0)) 2 0 = 0 ∧
      skipZeros (mem [49, 51] (fun _ => 0)) 2 0 = 0 ∧
      commonRun (mem [49, 50] (fun _ => 0)) 2 (mem [49, 51] (fun _ => 0)) 2 0 0 0 = 2 ∧
      ¬ (0 + 2 < 2 ∧ isdigit (mem [49, 50] (fun _ => 0) (0 + 2)) = true) ∧
      ¬ (0 + 2 < 2 ∧ isdigit (mem [49, 51] (fun _ => 0) (0 + 2)) = true) ∧
      memcmp (mem [49, 50] (fun _ => 0)) 0 (mem [49, 51] (fun _ => 0)) 0 2 = -1 ∧
      mem [49, 50] (fun _ => 0) 1 ≠ mem [49, 51] (fun _ => 0) 1 ∧
      loopBody 2 (mem [49, 50] (fun _ => 0)) 2 (mem [49, 51] (fun _ => 0)) 0 0 =
        Step.ret (-1) := by
  have hbA : bytesFrom (mem [49, 50] (fun _ => 0)) 2 0 = [49, 50] := by decide
  have hbB : bytesFrom (mem [49, 51] (fun _ => 0)) 2 0 = [49, 51] := by decide
  refine ⟨by decide, by decide, skipZeros_eq_self _ _ _ (by decide),
    skipZeros_eq_self _ _ _ (by decide), ?_, by decide, by decide, by decide, by decide, ?_⟩
  · rw [commonRun_eq, Nat.add_zero, hbA, hbB]
    decide
  · rw [loopBody_eq_listBody _ _ _ _ _ _ (by decide) (by decide), hbA, hbB]
    decide

/-- C13, amended. When the both-digits branch reaches the byte comparison,
the two windows are `k` digits each; the sign of the `memcmp` is the sign of
the comparison of the numeric values of the two digit runs; it is 0 exactly
when the windows are byte-for-byte equal; the function returns from the
`memcmp` when it is not 0 and proceeds past the segment when it is 0. -/
theorem C13_equal_length_amended (nKey1 : Nat) (zA : Nat → Nat) (nKey2 : Nat)
    (zB : Nat → Nat) (i j i1 j1 k : Nat) (hi : i < nKey1) (hj : j < nKey2)
    (h1 : isdigit (zA i) = true) (h2 : isdigit (zB j) = true)
    (e1 : i1 = skipZeros zA nKey1 i) (e2 : j1 = skipZeros zB nKey2 j)
    (e3 : k = commonRun zA nKey1 zB nKey2 i1 j1 0)
    (h3 : ¬ (i1 + k < nKey1 ∧ isdigit (zA (i1 + k)) = true))
    (h4 : ¬ (j1 + k < nKey2 ∧ isdigit (zB (j1 + k)) = true)) :
    (∀ m, m < k → isdigit (zA (i1 + m)) = true ∧ isdigit (zB (j1 + m)) = true) ∧
      Int.sign (memcmp zA i1 zB j1 k) =
        Int.sign ((runVal (bytesFrom zA nKey1 i) : Int) - (runVal (bytesFrom zB nKey2 j) : Int)) ∧
      (memcmp zA i1 zB j1 k = 0 ↔ ∀ m, m < k → zA (i1 + m) = zB (j1 + m)) ∧
      (memcmp zA i1 zB j1 k ≠ 0 →
        loopBody nKey1 zA nKey2 zB i j = Step.ret (memcmp zA i1 zB j1 k)) ∧
      (memcmp zA i1 zB j1 k = 0 →
        loopBody nKey1 zA nKey2 zB i j = Step.next (i1 + k) (j1 + k)) := by
  have hle := commonRun_le zA nKey1 zB nKey2 i1 j1 0
    (by rw [e1]; exact skipZeros_le zA nKey1 i hi.le)
    (by rw [e2]; exact skipZeros_le zB nKey2 j hj.le)
  rw [← e3] at hle
  have eA : (bytesFrom zA nKey1 i).drop (zerosLen (bytesFrom zA nKey1 i)) =
      bytesFrom zA nKey1 i1 := by
    rw [bytesFrom_drop, ← skipZeros_eq, e1]
  have eB : (bytesFrom zB nKey2 j).drop (zerosLen (bytesFrom zB nKey2 j)) =
      bytesFrom zB nKey2 j1 := by
    rw [bytesFrom_drop, ← skipZeros_eq, e2]
  have hk := commonRun_eq zA nKey1 zB nKey2 i1 j1 0
  rw [Nat.zero_add, Nat.add_zero, Nat.add_zero, ← e3, commonLen_eq_min] at hk
  have hA := headDigit_drop (bytesFrom zA nKey1 i1) k (by omega)
  have hB := headDigit_drop (bytesFrom zB nKey2 j1) k (by omega)
  rw [bytesFrom_drop, headDigit_bytesFrom] at hA hB
  have dA : digitsLen (bytesFrom zA nKey1 i1) = k := by
    have : ¬ k < digitsLen (bytesFrom zA nKey1 i1) := fun h => h3 (hA.2 h)
    omega
  have dB : digitsLen (bytesFrom zB nKey2 j1) = k := by
    have : ¬ k < digitsLen (bytesFrom zB nKey2 j1) := fun h => h4 (hB.2 h)
    omega
  refine ⟨?_, ?_, memcmp_eq_zero_iff zA zB k i1 j1, fun hx => ?_, fun hx => ?_⟩
  · rw [e3]
    exact commonRun_digits zA nKey1 zB nKey2 i1 j1 0 (fun m hm => absurd hm (by omega))
  · rw [memcmp_eq zA nKey1 zB nKey2 k i1 j1 hle.1 hle.2, cmpBytes_digits k _ _ dA dB,
      ← eA, ← eB, runVal_dropZeros, runVal_dropZeros]
  · unfold loopBody
    simp only [h1, h2, if_true, not_true_eq_false, if_false, ← e1, ← e2, ← e3, if_neg h3,
      if_neg h4, if_pos hx]
  · unfold loopBody
    simp only [h1, h2, if_true, not_true_eq_false, if_false, ← e1, ← e2, ← e3, if_neg h3,
      if_neg h4, if_neg (not_not.2 hx)]

/-- Witness of C13, amended: "12" against "13" at the start of the keys. -/
theorem C13_equal_length_amended_witness :
    Int.sign (memcmp (mem [49, 50] (fun _ => 0)) 0 (mem [49, 51] (fun _ => 0)) 0 2) =
      Int.sign ((runVal (bytesFrom (mem [49, 50] (fun _ => 0)) 2 0) : Int) -
        (runVal (bytesFrom (mem [49, 51] (fun _ => 0)) 2 0) : Int)) :=
  (C13_equal_length_amended 2 (mem [49, 50] (fun _ => 0)) 2 (mem [49, 51] (fun _ => 0))
    0 0 0 0 2 (by decide) (by decide) (by decide) (by decide)
    (skipZeros_eq_self _ _ _ (by decide)).symm (skipZeros_eq_self _ _ _ (by decide)).symm
    (by
      rw [commonRun_eq, Nat.add_zero,
        show bytesFrom (mem [49, 50] (fun _ => 0)) 2 0 = [49, 50] by decide,
        show bytesFrom (mem [49, 51] (fun _ => 0)) 2 0 = [49, 51] by decide]
      decide)
    (by omega) (by omega)).2.1

/-- Counterexample to C14 as stated: the buffer "0" against the empty buffer
gives 1, not 0. -/
theorem C14_zeros_vs_empty_counterexample :
    natSortCollFunc (List.replicate 1 48).length (mem (List.replicate 1 48) (fun _ => 0))
      0 (mem [] (fun _ => 0)) ≠ 0 := by
  rw [natSortCollFunc, natSortLoop_exit _ _ _ _ 0 0 (by decide)]
  decide

/-- C14, amended. For every `m ≥ 1` the buffer of `m` bytes `'0'` orders after
the empty buffer: the loop is not entered and the results are `m` and `-m`.
Buffers of `'0'` bytes compare equal to each other, whatever their lengths
`m ≥ 1` and `n ≥ 1`. -/
theorem C14_zeros_vs_empty_amended (m n : Nat) (zE pastA pastB : Nat → Nat)
    (hm : 1 ≤ m) (hn : 1 ≤ n) :
    natSortCollFunc (List.replicate m 48).length (mem (List.replicate m 48) pastA) 0 zE =
        (m : Int) ∧
      natSortCollFunc 0 zE (List.replicate m 48).length (mem (List.replicate m 48) pastA) =
        - (m : Int) ∧
      natSortCollFunc (List.replicate m 48).length (mem (List.replicate m 48) pastA)
        (List.replicate n 48).length (mem (List.replicate n 48) pastB) = 0 := by
  refine ⟨?_, ?_, ?_⟩
  · rw [natSortCollFunc, natSortLoop_exit _ _ _ _ 0 0 (by omega), List.length_replicate]
    push_cast
    ring
  · rw [natSortCollFunc, natSortLoop_exit _ _ _ _ 0 0 (by omega), List.length_replicate]
    push_cast
    ring
  · obtain ⟨m, rfl⟩ : ∃ m', m = m' + 1 := ⟨m - 1, by omega⟩
    obtain ⟨n, rfl⟩ : ∃ n', n = n' + 1 := ⟨n - 1, by omega⟩
    rw [zero_iff_sign, natSortCollFunc_mem_sign, key_zeros, key_zeros]
    rfl

/-- Witness of C14, amended: "00" against the empty buffer and against "0". -/
theorem C14_zeros_vs_empty_amended_witness :
    1 ≤ 2 ∧ 1 ≤ 1 ∧
      natSortCollFunc (List.replicate 2 48).length (mem (List.replicate 2 48) (fun _ => 0))
        0 (mem [] (fun _ => 0)) = ((2 : Nat) : Int) :=
  ⟨by decide, by decide,
    (C14_zeros_vs_empty_amended 2 1 (mem [] (fun _ => 0)) (fun _ => 0) (fun _ => 0)
      (by decide) (by decide)).1⟩

/-- C15. Common-prefix cancellation: behind a common prefix `P` that does not
end in a digit the result has the sign of the result on the suffixes alone;
the scan reaches the end of `P` with both cursors, and from there it returns
the very value it returns on the suffixes alone (held in any memory). -/
theorem C15_prefix_cancel (P S1 S2 : List Nat) (pastA pastB qA qB : Nat → Nat)
    (hP : endsInDigit P = false) :
    Int.sign (natSortCollFunc (P ++ S1).length (mem (P ++ S1) pastA)
        (P ++ S2).length (mem (P ++ S2) pastB)) =
        Int.sign (natSortCollFunc S1.length (mem S1 qA) S2.length (mem S2 qB)) ∧
      natSortCollFunc (P ++ S1).length (mem (P ++ S1) pastA)
        (P ++ S2).length (mem (P ++ S2) pastB) =
        natSortLoop (P ++ S1).length (mem (P ++ S1) pastA)
          (P ++ S2).length (mem (P ++ S2) pastB) P.length P.length ∧
      natSortCollFunc (P ++ S1).length (mem (P ++ S1) pastA)
        (P ++ S2).length (mem (P ++ S2) pastB) =
        natSortCollFunc S1.length (mem S1 qA) S2.length (mem S2 qB) := by
  have h1 := natSortCollFunc_shared P S1 S2 pastA pastB hP
  have h2 : natSortLoop (P ++ S1).length (mem (P ++ S1) pastA)
      (P ++ S2).length (mem (P ++ S2) pastB) P.length P.length =
      natSortCollFunc S1.length (mem S1 qA) S2.length (mem S2 qB) := by
    unfold natSortCollFunc
    apply natSortLoop_congr
    · simp
    · simp
    · exact Nat.zero_le _
    · exact Nat.zero_le _
    · rw [bytesFrom_mem_append, bytesFrom_mem]
    · rw [bytesFrom_mem_append, bytesFrom_mem]
  exact ⟨by rw [h1, h2], h1, by rw [h1, h2]⟩

/-- Witness of C15: "ab1" and "ab2" against "1" and "2". -/
theorem C15_prefix_cancel_witness :
    endsInDigit [97, 98] = false ∧
      Int.sign (natSortCollFunc ([97, 98] ++ [49]).length (mem ([97, 98] ++ [49]) (fun _ => 0))
        ([97, 98] ++ [50]).length (mem ([97, 98] ++ [50]) (fun _ => 0))) =
        Int.sign (natSortCollFunc [49].length (mem [49] (fun _ => 0))
          [50].length (mem [50] (fun _ => 0))) :=
  ⟨by decide,
    (C15_prefix_cancel [97, 98] [49] [50] (fun _ => 0) (fun _ => 0) (fun _ => 0) (fun _ => 0)
      (by decide)).1⟩

/-- C16. Cursor invariant: whenever the test of the outer loop is reached, the
cursors are within the lengths (they are natural numbers, so not negative);
the loops of lines 39 and 40 and the pass as a whole never move a cursor back
nor past the length; the value of the call is the value of the loop from
there; and when the loop is left there, one of the buffers is exhausted and
the call returns the number of unconsumed bytes of A minus that of B. -/
theorem C16_cursor_invariant (nKey1 : Nat) (zA : Nat → Nat) (nKey2 : Nat) (zB : Nat → Nat)
    (i j : Nat) (h : LoopHead nKey1 zA nKey2 zB i j) :
    (i ≤ nKey1 ∧ j ≤ nKey2) ∧
      (i ≤ skipZeros zA nKey1 i ∧ skipZeros zA nKey1 i ≤ nKey1 ∧
        j ≤ skipZeros zB nKey2 j ∧ skipZeros zB nKey2 j ≤ nKey2) ∧
      (∀ i2 j2, i < nKey1 → j < nKey2 →
        loopBody nKey1 zA nKey2 zB i j = Step.next i2 j2 →
        i ≤ i2 ∧ j ≤ j2 ∧ i2 ≤ nKey1 ∧ j2 ≤ nKey2) ∧
      natSortCollFunc nKey1 zA nKey2 zB = natSortLoop nKey1 zA nKey2 zB i j ∧
      (¬ (i < nKey1 ∧ j < nKey2) →
        (i = nKey1 ∨ j = nKey2) ∧
          natSortCollFunc nKey1 zA nKey2 zB =
            ((nKey1 - i : Nat) : Int) - ((nKey2 - j : Nat) : Int)) := by
  have hle := LoopHead_le nKey1 zA nKey2 zB i j h
  have hv := LoopHead_value nKey1 zA nKey2 zB i j h
  refine ⟨hle, ⟨skipZeros_ge zA nKey1 i, skipZeros_le zA nKey1 i hle.1,
    skipZeros_ge zB nKey2 j, skipZeros_le zB nKey2 j hle.2⟩, fun i2 j2 hi hj hb => ?_, hv,
    fun hex => ⟨by omega, ?_⟩⟩
  · have := loopBody_next nKey1 zA nKey2 zB i j i2 j2 hi hj hb
    exact ⟨this.1, this.2.1, this.2.2.2.1, this.2.2.2.2⟩
  · rw [hv, natSortLoop_exit nKey1 zA nKey2 zB i j hex]
    omega

/-- Witness of C16 on the keys "a" and "a": after the first pass both cursors
are at 1, the loop is left, and the call returns 0 - 0. -/
theorem C16_cursor_invariant_witness :
    LoopHead 1 (mem [97] (fun _ => 0)) 1 (mem [97] (fun _ => 0)) 1 1 ∧
      ((1 = 1 ∨ 1 = 1) ∧
        natSortCollFunc 1 (mem [97] (fun _ => 0)) 1 (mem [97] (fun _ => 0)) =
          ((1 - 1 : Nat) : Int) - ((1 - 1 : Nat) : Int)) :=
  ⟨LoopHead.pass 0 0 1 1 LoopHead.start (by decide) (by decide)
      (loopBody_byte_eq 1 _ 1 _ 0 0 (by decide) (by decide)),
    (C16_cursor_invariant 1 (mem [97] (fun _ => 0)) 1 (mem [97] (fun _ => 0)) 1 1
      (LoopHead.pass 0 0 1 1 LoopHead.start (by decide) (by decide)
        (loopBody_byte_eq 1 _ 1 _ 0 0 (by decide) (by decide)))).2.2.2.2 (by omega)⟩

/-- C17. Independence from memory past the length: two calls whose memories
agree below the two lengths return the same value, whatever lies at the
lengths and beyond; in particular the loop of line 39, which reads
`zA[nKey1]`, leaves with the same cursor. -/
theorem C17_memory_past_length (nKey1 nKey2 : Nat) (zA zA' zB zB' : Nat → Nat)
    (hA : ∀ i, i < nKey1 → zA i = zA' i) (hB : ∀ j, j < nKey2 → zB j = zB' j) :
    natSortCollFunc nKey1 zA nKey2 zB = natSortCollFunc nKey1 zA' nKey2 zB' ∧
      (∀ i, skipZeros zA nKey1 i = skipZeros zA' nKey1 i) ∧
      (∀ j, skipZeros zB nKey2 j = skipZeros zB' nKey2 j) := by
  refine ⟨?_, fun i => ?_, fun j => ?_⟩
  · exact natSortLoop_congr nKey1 zA nKey2 zB nKey1 zA' nKey2 zB' 0 0 0 0
      (Nat.zero_le _) (Nat.zero_le _) (Nat.zero_le _) (Nat.zero_le _)
      (bytesFrom_congr zA zA' nKey1 0 hA) (bytesFrom_congr zB zB' nKey2 0 hB)
  · rw [skipZeros_eq, skipZeros_eq, bytesFrom_congr zA zA' nKey1 i hA]
  · rw [skipZeros_eq, skipZeros_eq, bytesFrom_congr zB zB' nKey2 j hB]

/-- Witness of C17: the key "0" followed in memory by `'0'` bytes and the same
key followed by zero bytes. -/
theorem C17_memory_past_length_witness :
    natSortCollFunc 1 (mem [48] (fun _ => 48)) 1 (mem [48] (fun _ => 48)) =
      natSortCollFunc 1 (mem [48] (fun _ => 0)) 1 (mem [48] (fun _ => 0)) :=
  (C17_memory_past_length 1 1 (mem [48] (fun _ => 48)) (mem [48] (fun _ => 0))
    (mem [48] (fun _ => 48)) (mem [48] (fun _ => 0))
    (fun i hi => by
      have h0 : i = 0 := by omega
      subst h0
      rfl)
    (fun j hj => by
      have h0 : j = 0 := by omega
      subst h0
      rfl)).1

end NatSort
